import Mathlib

/-!
Verification of compressed_rotating_file_sink.

Shallow embedding of `src/LogWrapper/compressed_rotating_file_sink.hpp`: the size-triggered
rotating sink (`sink_it_`, `rotate_`, `rename_file_`, `calc_filename`), its archive staging
(`compressW_`, the same text as `compressA_` over narrow strings) and its constructor.

The sink lives on a small model of the operating system (`World`): regular files, directories,
and a script of outcomes for the coming `os::rename` calls, so that the retry and truncate
branch of `rotate_` can be exercised.  Two ghost components record what happened: the trace of
`rotate_` entries and of `os::rename` calls.
-/

namespace spdlog

/-- File names: `filename_t` is a string of characters. -/
abbrev filename_t := List Char

/-- Formatted records and file contents: `memory_buf_t` is a buffer of characters. -/
abbrev memory_buf_t := List Char

/-- Number of values of `std::size_t` (64-bit build). -/
def SIZE_MOD : Nat := 2 ^ 64

/-- Decimal rendering of an index, as `std::to_wstring` and the `{}` of `fmt_lib::format`
produce it. -/
def to_string (n : Nat) : List Char := Nat.toDigits 10 n

/-- Value of a decimal digit character. -/
def digit_value (c : Char) : Nat := c.toNat - 48

/-- Value of a string of decimal digits, most significant digit first. -/
def decimal_value (cs : List Char) : Nat := cs.foldl (fun a c => 10 * a + digit_value c) 0

/-- Position of the last character of `s` that satisfies `p`; `none` stands for `npos`. -/
def find_last (p : Char → Bool) : List Char → Option Nat
  | [] => none
  | c :: cs =>
    match find_last p cs with
    | some i => some (i + 1)
    | none => if p c then some 0 else none

/-- The call `s.rfind(c)`. -/
def rfind (s : List Char) (c : Char) : Option Nat := find_last (fun x => x == c) s

/-- The call `s.find_last_of(chars)`. -/
def find_last_of (s : List Char) (chars : List Char) : Option Nat :=
  find_last (fun x => chars.contains x) s

/-- Folder separators of the target platform (`SPDLOG_FOLDER_SEPS` on Windows, where the
repository is built with wide file names). -/
def folder_seps_filename : List Char := ['\\', '/']

/-- Modelled from the spec: `details::file_helper::split_by_extension` is code of the spdlog
library and is not under src/.  The spec (4.1) has the base split into `(stem, extension)` at
its last `.`; the library leaves the name whole (empty extension) when there is no `.`, when
the last `.` opens or closes the name, or when it belongs to a folder component or directly
follows a folder separator (a hidden file). -/
def split_by_extension (fname : filename_t) : filename_t × filename_t :=
  match rfind fname '.' with
  | none => (fname, [])
  | some ext_index =>
    if ext_index = 0 ∨ ext_index = fname.length - 1 then (fname, [])
    else
      match find_last_of fname folder_seps_filename with
      | some folder_index =>
        if folder_index ≥ ext_index - 1 then (fname, [])
        else (fname.take ext_index, fname.drop ext_index)
      | none => (fname.take ext_index, fname.drop ext_index)

/-- The function `compressed_rotating_file_sink::calc_filename`:
`calc_filename("logs/mylog.txt", 3) = "logs/mylog.3.txt"`. -/
def calc_filename (filename : filename_t) (index : Nat) : filename_t :=
  if index = 0 then filename
  else
    let sp := split_by_extension filename
    sp.1 ++ ['.'] ++ to_string index ++ sp.2

/-- Reference split, in the words of the spec (4.1): the base is split into stem and extension
at its last `.`, and a base without `.` has an empty extension.  It is written on its own, by
recursion on the text, without the search functions of the implementation. -/
def split_at_last_dot : filename_t → filename_t × filename_t
  | [] => ([], [])
  | c :: cs =>
    if (split_at_last_dot cs).2.isEmpty then
      (if c = '.' then ([], c :: cs) else (c :: cs, []))
    else (c :: (split_at_last_dot cs).1, (split_at_last_dot cs).2)

/-- Reference naming policy, in the words of the spec (4.1): index 0 returns the base
unchanged; a positive index returns `stem + "." + index + extension`, the base being split at
its last `.`. -/
def calc_name_spec (base : filename_t) (index : Nat) : filename_t :=
  match index with
  | 0 => base
  | k + 1 =>
    match split_at_last_dot base with
    | (stem, extension) => stem ++ ['.'] ++ to_string (k + 1) ++ extension

/-- Whether a text ends with a folder separator. -/
def ends_with_separator (s : List Char) : Bool :=
  match s.reverse with
  | c :: _ => folder_seps_filename.contains c
  | [] => false

/-- The bases whose last `.` does not open an extension, stated on the reference split: there
is no `.`, or the last `.` is the first or the last character, or a folder separator stands
directly before it or somewhere after it. -/
def keeps_whole (base : filename_t) : Bool :=
  (split_at_last_dot base).2.isEmpty || (split_at_last_dot base).1.isEmpty ||
    (split_at_last_dot base).2.tail.isEmpty ||
    (split_at_last_dot base).2.any (fun c => folder_seps_filename.contains c) ||
    ends_with_separator (split_at_last_dot base).1

/-! ## The operating system -/

/-- Ghost events: an entry into `rotate_`, and a call of `os::rename` with its outcome. -/
inductive Event where
  | rotate
  | rename (src target : filename_t) (ok : Bool)
  deriving DecidableEq

/-- State of the file system as the sink sees it. -/
structure World where
  /-- Content of each regular file, `none` where there is no file. -/
  files : filename_t → Option memory_buf_t
  /-- The directories that exist. -/
  dirs : filename_t → Bool
  /-- Outcomes of the coming `os::rename` calls on an existing source: `true` is a refusal by
  the system (a locked file, a denied permission).  An empty script means success. -/
  rename_fail : List Bool
  /-- Ghost trace, newest event first. -/
  trace : List Event

namespace os

/-- The call `details::os::path_exists`; the empty path never exists. -/
def path_exists (w : World) (p : filename_t) : Bool :=
  !p.isEmpty && ((w.files p).isSome || w.dirs p)

/-- The call `details::os::remove`. -/
def remove (w : World) (p : filename_t) : World :=
  { w with files := fun q => if q = p then none else w.files q }

/-- The call `details::os::rename`, with `true` for the return value 0.  It fails without
effect when the source is missing or when the system refuses. -/
def rename (w : World) (src target : filename_t) : Bool × World :=
  match w.files src with
  | none => (false, { w with trace := Event.rename src target false :: w.trace })
  | some c =>
    match w.rename_fail with
    | true :: rest =>
      (false, { w with rename_fail := rest, trace := Event.rename src target false :: w.trace })
    | script =>
      (true, { w with
        files := fun q => if q = target then some c else if q = src then none else w.files q,
        rename_fail := script.tail,
        trace := Event.rename src target true :: w.trace })

/-- The call `details::os::dir_name`: the path up to its last folder separator. -/
def dir_name (path : filename_t) : filename_t :=
  match find_last_of path folder_seps_filename with
  | some pos => path.take pos
  | none => []

end os

/-! ## The file handle -/

/-- Modelled from the spec: `details::file_helper` is code of the spdlog library and is not
under src/.  The spec (4.2) gives it open, write, flush, close, reopen-with-truncate and size.
Written bytes wait in `pending` until a flush; `size` measures the file on disk. -/
structure file_helper where
  filename_ : filename_t
  pending : memory_buf_t

namespace file_helper

/-- Modelled from the spec: `file_helper::flush`, the pending bytes reach the file. -/
def flush (h : file_helper) (w : World) : file_helper × World :=
  ({ h with pending := [] },
   { w with files := fun q =>
      if q = h.filename_ then (w.files q).map (fun c => c ++ h.pending) else w.files q })

/-- Modelled from the spec: `file_helper::close`, which flushes. -/
def close (h : file_helper) (w : World) : file_helper × World := h.flush w

/-- Modelled from the spec: `file_helper::open(fname, truncate)`: the folder of the file is
created, and the file is created or kept, empty when `truncate` is set. -/
def open_ (fname : filename_t) (truncate : Bool) (w : World) : file_helper × World :=
  ({ filename_ := fname, pending := [] },
   { w with
      files := fun q =>
        if q = fname then (if truncate then some [] else some ((w.files q).getD []))
        else w.files q,
      dirs := fun d => if d = os.dir_name fname ∧ d ≠ [] then true else w.dirs d })

/-- Modelled from the spec: `file_helper::reopen(truncate)`: close, then open the same name. -/
def reopen (h : file_helper) (truncate : Bool) (w : World) : file_helper × World :=
  let c := h.close w
  file_helper.open_ h.filename_ truncate c.2

/-- Modelled from the spec: `file_helper::write`. -/
def write (h : file_helper) (buf : memory_buf_t) : file_helper :=
  { h with pending := h.pending ++ buf }

/-- Modelled from the spec: `file_helper::size`, the size of the file on disk. -/
def size (h : file_helper) (w : World) : Nat := ((w.files h.filename_).getD []).length

end file_helper

/-! ## The sink -/

/-- Data members of `compressed_rotating_file_sink`. -/
structure sink where
  base_filename_ : filename_t
  max_size_ : Nat
  max_files_ : Nat
  max_compressed_files_ : Nat
  current_size_ : Nat
  file_helper_ : file_helper
  dir_ : filename_t
  basename_ : filename_t
  file_ext_ : filename_t

/-- Result of a member function that may throw `spdlog_ex`: whether it threw, and the sink and
the world it leaves behind. -/
structure Outcome where
  threw : Bool
  s : sink
  w : World

/-- The member `rename_file_`: delete the target if it exists, then rename. -/
def rename_file_ (w : World) (src_filename target_filename : filename_t) : Bool × World :=
  os.rename (os.remove w target_filename) src_filename target_filename

/-- The loop of `rotate_`, `for (auto i = max_files_; i > 0; --i)`, entered with `i` equal to
the first argument.  The result is `false` when a rename failed on both attempts. -/
def rotate_loop (base_filename : filename_t) : Nat → World → Bool × World
  | 0, w => (true, w)
  | i + 1, w =>
    let src := calc_filename base_filename i
    if !os.path_exists w src then rotate_loop base_filename i w
    else
      let target := calc_filename base_filename (i + 1)
      let first := rename_file_ w src target
      if first.1 then rotate_loop base_filename i first.2
      else
        let second := rename_file_ first.2 src target
        if second.1 then rotate_loop base_filename i second.2
        else (false, second.2)

/-- The member `rotate_`. -/
def rotate_ (s : sink) (w : World) : Outcome :=
  let closed := s.file_helper_.close { w with trace := Event.rotate :: w.trace }
  let shifted := rotate_loop s.base_filename_ s.max_files_ closed.2
  let reopened := closed.1.reopen true shifted.2
  if shifted.1 then
    { threw := false, s := { s with file_helper_ := reopened.1 }, w := reopened.2 }
  else
    { threw := true, s := { s with file_helper_ := reopened.1, current_size_ := 0 },
      w := reopened.2 }

/-- The archive extension `compress_ext`. -/
def compress_ext : filename_t := "zip".toList

/-- The expression `basename + "." + to_string(index) + file_ext_ + "." + compress_ext`. -/
def archive_name (basename file_ext : filename_t) (index : Nat) : filename_t :=
  basename ++ ['.'] ++ to_string index ++ file_ext ++ ['.'] ++ compress_ext

/-- The expression `basename + "." + to_string(index) + file_ext_`. -/
def rotated_name (basename file_ext : filename_t) (index : Nat) : filename_t :=
  basename ++ ['.'] ++ to_string index ++ file_ext

/-- The local `basename` of `compressW_`. -/
def compress_basename (s : sink) : filename_t :=
  if s.dir_.isEmpty then "./".toList ++ s.basename_ else s.dir_ ++ "/".toList ++ s.basename_

/-- The shifting loop of `compressW_`,
`for (index = min_value; index < max_value; ++index) rename_file_(src_file, target_file)`. -/
def shift_archives (basename file_ext : filename_t) (max_value : Nat) (w : World) : World :=
  (List.range' 1 (max_value - 1)).foldl
    (fun acc index =>
      (rename_file_ acc (archive_name basename file_ext (index + 1))
        (archive_name basename file_ext index)).2)
    w

/-- What `compressW_` leaves: the world, and its locals `compress_target_file` and
`file_to_compress`. -/
structure Staged where
  w : World
  compress_target_file : filename_t
  file_to_compress : filename_t

/-- The member `compressW_` (and `compressA_`, the same text over narrow strings).  The
compression itself is disabled in the source (`if (false)`), so only the archive chain moves. -/
def compressW_ (s : sink) (w : World) : Staged :=
  if s.max_compressed_files_ = 0 then
    { w := w, compress_target_file := [], file_to_compress := [] }
  else
    let basename := compress_basename s
    let max_value := s.max_compressed_files_
    let regex_newest_file := archive_name basename s.file_ext_ max_value
    let chain : World × filename_t :=
      if os.path_exists w s.dir_ then
        if os.path_exists w regex_newest_file then
          (shift_archives basename s.file_ext_ max_value w, regex_newest_file)
        else
          (w, (((List.range' 1 max_value).find?
            (fun index => !os.path_exists w (archive_name basename s.file_ext_ index))).map
              (archive_name basename s.file_ext_)).getD [])
      else (w, [])
    { w := chain.1,
      compress_target_file := chain.2,
      file_to_compress := (((List.range' 1 max_value).find?
        (fun index => os.path_exists chain.1 (rotated_name basename s.file_ext_ index))).map
          (rotated_name basename s.file_ext_)).getD [] }

/-- The member `sink_it_`, applied to the formatted record. -/
def sink_it_ (s : sink) (w : World) (formatted : memory_buf_t) : Outcome :=
  let new_size := (s.current_size_ + formatted.length) % SIZE_MOD
  if new_size > s.max_size_ then
    let flushed := s.file_helper_.flush w
    if flushed.1.size flushed.2 > 0 then
      let rotated := rotate_ { s with file_helper_ := flushed.1 } flushed.2
      if rotated.threw then rotated
      else
        let staged := compressW_ rotated.s rotated.w
        { threw := false,
          s := { rotated.s with
            file_helper_ := rotated.s.file_helper_.write formatted,
            current_size_ := formatted.length },
          w := staged.w }
    else
      { threw := false,
        s := { s with file_helper_ := flushed.1.write formatted, current_size_ := new_size },
        w := flushed.2 }
  else
    { threw := false,
      s := { s with file_helper_ := s.file_helper_.write formatted, current_size_ := new_size },
      w := w }

/-- The member `flush_`. -/
def flush_ (s : sink) (w : World) : sink × World :=
  let flushed := s.file_helper_.flush w
  ({ s with file_helper_ := flushed.1 }, flushed.2)

/-- The `basename_` that the constructor computes from the path without its extension. -/
def basename_of (path : filename_t) : filename_t :=
  let after_slash : filename_t :=
    match rfind path '/' with
    | some dir_index => path.drop (dir_index + 1)
    | none => []
  match rfind path '\\' with
  | some dir_index => path.drop (dir_index + 1)
  | none => after_slash

/-- The constructor.  It returns the new sink, or the message of the `spdlog_ex` it throws,
and the world it leaves. -/
def construct (base_filename : filename_t) (max_size max_files max_compressed_files : Nat)
    (rotate_on_open : Bool) (w : World) : Except String sink × World :=
  if max_size = 0 then
    (Except.error "rotating sink constructor: max_size arg cannot be zero", w)
  else if max_files > 200000 then
    (Except.error "rotating sink constructor: max_files arg cannot exceed 200000", w)
  else
    let opened := file_helper.open_ (calc_filename base_filename 0) false w
    let sp := split_by_extension base_filename
    let s : sink :=
      { base_filename_ := base_filename, max_size_ := max_size, max_files_ := max_files,
        max_compressed_files_ := max_compressed_files,
        current_size_ := opened.1.size opened.2,
        file_helper_ := opened.1,
        dir_ := os.dir_name sp.1, basename_ := basename_of sp.1, file_ext_ := sp.2 }
    if rotate_on_open && decide (s.current_size_ > 0) then
      let rotated := rotate_ s opened.2
      if rotated.threw then (Except.error "rotating_file_sink: failed renaming", rotated.w)
      else
        let staged := compressW_ rotated.s rotated.w
        (Except.ok { rotated.s with current_size_ := 0 }, staged.w)
    else (Except.ok s, opened.2)

/-! ## Observations used in the statements -/

/-- The slot of index `i` of the rotation chain of a base name: its file, if any. -/
def slot (w : World) (base_filename : filename_t) (i : Nat) : Option memory_buf_t :=
  w.files (calc_filename base_filename i)

/-- Content of the active file as a reader would find it after a flush: the bytes on disk
followed by the bytes still pending in the handle. -/
def active_content (s : sink) (w : World) : Option memory_buf_t :=
  (w.files s.file_helper_.filename_).map (fun c => c ++ s.file_helper_.pending)

/-- Size that `file_helper_.size()` reports once `file_helper_.flush()` has run: the real size
of the active file. -/
def real_size (s : sink) (w : World) : Nat :=
  (s.file_helper_.flush w).1.size (s.file_helper_.flush w).2

/-- The sink after the flush that `sink_it_` performs when the projected size is too large. -/
def flushed_sink (s : sink) (w : World) : sink :=
  { s with file_helper_ := (s.file_helper_.flush w).1 }

/-- Ghost observation: whether an event is an entry into `rotate_`. -/
def Event.is_rotate : Event → Bool
  | Event.rotate => true
  | Event.rename _ _ _ => false

/-- Ghost observation: number of rotations started so far. -/
def rotations (w : World) : Nat := w.trace.countP Event.is_rotate

/-- Ghost observation: number of `os::rename` calls made so far. -/
def renames (w : World) : Nat := w.trace.countP (fun e => !e.is_rotate)

/-- Whether `sink_it_` takes its rotating path on this record: the test of its two `if`s. -/
def will_rotate (s : sink) (w : World) (formatted : memory_buf_t) : Bool :=
  decide ((s.current_size_ + formatted.length) % SIZE_MOD > s.max_size_) &&
    decide (real_size s w > 0)

/-- A sequence of `sink_it_` calls, one per record; it stops at the first call that throws. -/
def write_all (s : sink) (w : World) : List memory_buf_t → Outcome
  | [] => { threw := false, s := s, w := w }
  | r :: rs =>
    let o := sink_it_ s w r
    if o.threw then o else write_all o.s o.w rs

/-- Ghost history of a sequence of `sink_it_` calls: the content that the active file had just
before each rotation, the latest rotation first. -/
def rotated_contents (s : sink) (w : World) : List memory_buf_t → List memory_buf_t
  | [] => []
  | r :: rs =>
    let o := sink_it_ s w r
    (if o.threw then [] else rotated_contents o.s o.w rs) ++
      (if will_rotate s w r then [(active_content s w).getD []] else [])

/-- The rotated slots of a base name hold the contents `H`, the latest first, as far as the
bound `max_files` allows, and no slot beyond holds a file. -/
def chain_holds (w : World) (base_filename : filename_t) (max_files : Nat)
    (H : List memory_buf_t) : Prop :=
  ∀ j, 1 ≤ j → slot w base_filename j = if j ≤ max_files then H[j - 1]? else none

/-- A world without files or folders, in which no rename is refused. -/
def World.empty : World :=
  { files := fun _ => none, dirs := fun _ => false, rename_fail := [], trace := [] }

/-- The sink as the constructor has it before its last `if`, once the file is open. -/
def initial_sink (base_filename : filename_t) (max_size max_files max_compressed_files : Nat)
    (w : World) : sink :=
  { base_filename_ := base_filename, max_size_ := max_size, max_files_ := max_files,
    max_compressed_files_ := max_compressed_files,
    current_size_ := (file_helper.open_ (calc_filename base_filename 0) false w).1.size
      (file_helper.open_ (calc_filename base_filename 0) false w).2,
    file_helper_ := (file_helper.open_ (calc_filename base_filename 0) false w).1,
    dir_ := os.dir_name (split_by_extension base_filename).1,
    basename_ := basename_of (split_by_extension base_filename).1,
    file_ext_ := (split_by_extension base_filename).2 }

/-- The size counter of the sink is the size of the active file, pending bytes included. -/
def size_tracked (s : sink) (w : World) : Prop :=
  ∃ c, active_content s w = some c ∧ s.current_size_ = c.length

/-- A record of `n` copies of one character. -/
def record_of (n : Nat) (c : Char) : memory_buf_t := List.replicate n c

/-- The sink of the scenarios of the spec (section 8): base name `base`, `max_size = 100`,
`max_rotated_files = 2`, `max_archives = 1`, as the constructor leaves it on an empty world. -/
def scenario_sink : sink :=
  { base_filename_ := "base".toList, max_size_ := 100, max_files_ := 2,
    max_compressed_files_ := 1, current_size_ := 0,
    file_helper_ := { filename_ := "base".toList, pending := [] },
    dir_ := [], basename_ := [], file_ext_ := [] }

/-- The world of the scenarios: only the active file, just opened and empty. -/
def scenario_world : World := (file_helper.open_ "base".toList false World.empty).2

/-- The scenario after its first write of 60 bytes. -/
def scenario_written : Outcome := sink_it_ scenario_sink scenario_world (record_of 60 'a')

/-- The scenario inside its second write of 60 bytes, when `rotate_` has returned and staging
is about to run. -/
def scenario_rotated : Outcome :=
  rotate_ (flushed_sink scenario_written.s scenario_written.w)
    (scenario_written.s.file_helper_.flush scenario_written.w).2

/-- The scenario after its first write, on a system that refuses the next two renames. -/
def refusing_world : World := { scenario_written.w with rename_fail := [true, true] }

/-- The scenario sink with three rotated files allowed, after writes that have filled the
active file with 60 bytes. -/
def gap_sink : sink := { scenario_sink with max_files_ := 3, current_size_ := 60 }

/-- A world for `gap_sink`: the active file and the rotated files 1 and 2, on a system that
accepts the next rename and refuses the two after it. -/
def gap_world : World :=
  { files := fun q =>
      if q = "base".toList then some (record_of 60 'c')
      else if q = "base.1".toList then some (record_of 60 'b')
      else if q = "base.2".toList then some (record_of 60 'a')
      else none,
    dirs := fun _ => false,
    rename_fail := [false, true, true],
    trace := [] }

/-- A sink as `LogWrapper::Init` configures it (`rotated_max_files = 1`,
`compressed_max_files = 1`), on the base name `logs/app.txt`. -/
def archive_sink : sink :=
  { base_filename_ := "logs/app.txt".toList, max_size_ := 1024 * 1024 * 200, max_files_ := 1,
    max_compressed_files_ := 1, current_size_ := 0,
    file_helper_ := { filename_ := "logs/app.txt".toList, pending := [] },
    dir_ := "logs".toList, basename_ := "app".toList, file_ext_ := ".txt".toList }

/-- A world for `archive_sink` just after a rotation: the folder, a fresh active file, the
rotated file 1 and the archives 1 and 2. -/
def archive_world : World :=
  { files := fun q =>
      if q = "logs/app.txt".toList then some []
      else if q = "logs/app.1.txt".toList then some "new".toList
      else if q = "logs/app.1.txt.zip".toList then some "old".toList
      else if q = "logs/app.2.txt.zip".toList then some "older".toList
      else none,
    dirs := fun d => d = "logs".toList,
    rename_fail := [],
    trace := [] }

/-- The same sink with two archives allowed. -/
def archive_sink_two : sink := { archive_sink with max_compressed_files_ := 2 }

/-- The sink of a constructor call, for a call that does not throw. -/
def constructed (r : Except String sink × World) : Option (sink × World) :=
  match r with
  | (Except.ok s, w) => some (s, w)
  | (Except.error _, _) => none

/-- The result of the constructor is one of the two `spdlog_ex` that it throws for a bad
policy value, before it opens the file. -/
def is_config_error (r : Except String sink) : Prop :=
  r = Except.error "rotating sink constructor: max_size arg cannot be zero" ∨
  r = Except.error "rotating sink constructor: max_files arg cannot exceed 200000"

/-- Content of slot `j` as a rotation finds it: the flushed content for the active file, the
file on disk for a rotated slot. -/
def slot_before (s : sink) (w : World) (j : Nat) : Option memory_buf_t :=
  if j = 0 then active_content s w else slot w s.base_filename_ j

/-- The base name is not empty and the members that the constructor derives from it hold their
constructed values. -/
def sink.wf (s : sink) : Prop :=
  s.base_filename_ ≠ [] ∧
  s.file_helper_.filename_ = s.base_filename_ ∧
  s.file_ext_ = (split_by_extension s.base_filename_).2 ∧
  s.dir_ = os.dir_name (split_by_extension s.base_filename_).1 ∧
  s.basename_ = basename_of (split_by_extension s.base_filename_).1

/-! ## Searching a string -/

theorem find_last_none {p : Char → Bool} :
    ∀ {s : List Char}, find_last p s = none → ∀ c ∈ s, p c = false := by
  intro s
  induction s with
  | nil => intro _ c hc; simp at hc
  | cons x xs ih =>
    intro h c hc
    simp only [find_last] at h
    cases hx : find_last p xs with
    | some i => rw [hx] at h; simp at h
    | none =>
      rw [hx] at h
      by_cases hp : p x = true
      · simp [hp] at h
      · rcases List.mem_cons.mp hc with rfl | hmem
        · simpa using hp
        · exact ih hx c hmem

theorem find_last_some {p : Char → Bool} :
    ∀ {s : List Char} {i : Nat}, find_last p s = some i →
      ∃ c, p c = true ∧ s = s.take i ++ c :: s.drop (i + 1) ∧
        ∀ d ∈ s.drop (i + 1), p d = false := by
  intro s
  induction s with
  | nil => intro i h; simp [find_last] at h
  | cons x xs ih =>
    intro i h
    simp only [find_last] at h
    cases hx : find_last p xs with
    | some j =>
      rw [hx] at h
      simp only [Option.some.injEq] at h
      subst h
      obtain ⟨c, hc, hs, hrest⟩ := ih hx
      refine ⟨c, hc, ?_, ?_⟩
      · simp only [List.take_succ_cons, List.drop_succ_cons, List.cons_append]
        rw [← hs]
      · simpa using hrest
    | none =>
      rw [hx] at h
      by_cases hp : p x = true
      · simp only [hp, if_true, Option.some.injEq] at h
        subst h
        refine ⟨x, hp, by simp, ?_⟩
        simpa using find_last_none hx
      · simp [hp] at h

theorem find_last_lt {p : Char → Bool} {s : List Char} {i : Nat}
    (h : find_last p s = some i) : i < s.length := by
  obtain ⟨c, _, hs, _⟩ := find_last_some h
  by_contra hlt
  have hle : s.length ≤ i := Nat.le_of_not_lt hlt
  have h1 : s.drop (i + 1) = [] := List.drop_eq_nil_of_le (by omega)
  have h2 : s.take i = s := List.take_of_length_le hle
  rw [h1, h2] at hs
  have := congrArg List.length hs
  simp at this

/-! ## Decimal rendering -/

theorem toDigitsCore_append (fuel : Nat) :
    ∀ (n : Nat) (ds : List Char),
      Nat.toDigitsCore 10 fuel n ds = Nat.toDigitsCore 10 fuel n [] ++ ds := by
  induction fuel with
  | zero => intro n ds; simp [Nat.toDigitsCore]
  | succ f ih =>
    intro n ds
    simp only [Nat.toDigitsCore]
    by_cases h : n / 10 = 0
    · simp [h]
    · simp only [h, if_false]
      rw [ih (n / 10) (Nat.digitChar (n % 10) :: ds), ih (n / 10) [Nat.digitChar (n % 10)]]
      simp

theorem toDigitsCore_fuel :
    ∀ (n f1 f2 : Nat), n < f1 → n < f2 →
      Nat.toDigitsCore 10 f1 n [] = Nat.toDigitsCore 10 f2 n [] := by
  intro n
  induction n using Nat.strong_induction_on with
  | _ n ih =>
    intro f1 f2 h1 h2
    obtain ⟨a, rfl⟩ : ∃ a, f1 = a + 1 := ⟨f1 - 1, by omega⟩
    obtain ⟨b, rfl⟩ : ∃ b, f2 = b + 1 := ⟨f2 - 1, by omega⟩
    simp only [Nat.toDigitsCore]
    by_cases h : n / 10 = 0
    · simp [h]
    · simp only [h, if_false]
      rw [toDigitsCore_append a, toDigitsCore_append b]
      have hlt : n / 10 < n := Nat.div_lt_self (by omega) (by decide)
      rw [ih (n / 10) hlt a b (by omega) (by omega)]

theorem to_string_small {n : Nat} (h : n < 10) : to_string n = [Nat.digitChar n] := by
  have h0 : n / 10 = 0 := Nat.div_eq_of_lt h
  have h1 : n % 10 = n := Nat.mod_eq_of_lt h
  simp [to_string, Nat.toDigits, Nat.toDigitsCore, h0, h1]

theorem to_string_big {n : Nat} (h : 10 ≤ n) :
    to_string n = to_string (n / 10) ++ [Nat.digitChar (n % 10)] := by
  have h0 : n / 10 ≠ 0 := by
    intro h0
    have := (Nat.div_eq_zero_iff (by decide : 0 < 10)).mp h0
    omega
  have hlt : n / 10 < n := Nat.div_lt_self (by omega) (by decide)
  have e1 : Nat.toDigitsCore 10 (n + 1) n [] =
      Nat.toDigitsCore 10 n (n / 10) [Nat.digitChar (n % 10)] := by
    simp [Nat.toDigitsCore, h0]
  show Nat.toDigitsCore 10 (n + 1) n [] =
    Nat.toDigitsCore 10 (n / 10 + 1) (n / 10) [] ++ [Nat.digitChar (n % 10)]
  rw [e1, toDigitsCore_append n, toDigitsCore_fuel (n / 10) n (n / 10 + 1) hlt (by omega)]

theorem digit_value_digitChar {d : Nat} (h : d < 10) : digit_value (Nat.digitChar d) = d := by
  interval_cases d <;> rfl

theorem isDigit_digitChar {d : Nat} (h : d < 10) : (Nat.digitChar d).isDigit = true := by
  interval_cases d <;> rfl

theorem decimal_value_to_string (n : Nat) : decimal_value (to_string n) = n := by
  induction n using Nat.strong_induction_on with
  | _ n ih =>
    by_cases h : n < 10
    · rw [to_string_small h]
      simp [decimal_value, digit_value_digitChar h]
    · have h10 : 10 ≤ n := Nat.le_of_not_lt h
      rw [to_string_big h10]
      have hlt : n / 10 < n := Nat.div_lt_self (by omega) (by decide)
      have := ih (n / 10) hlt
      simp only [decimal_value, List.foldl_append, List.foldl_cons, List.foldl_nil] at this ⊢
      rw [this, digit_value_digitChar (Nat.mod_lt n (by decide))]
      omega

theorem to_string_injective {i j : Nat} (h : to_string i = to_string j) : i = j := by
  have := congrArg decimal_value h
  simpa [decimal_value_to_string] using this

theorem to_string_isDigit (n : Nat) : ∀ c ∈ to_string n, c.isDigit = true := by
  induction n using Nat.strong_induction_on with
  | _ n ih =>
    by_cases h : n < 10
    · rw [to_string_small h]
      intro c hc
      simp only [List.mem_singleton] at hc
      subst hc
      exact isDigit_digitChar h
    · have h10 : 10 ≤ n := Nat.le_of_not_lt h
      rw [to_string_big h10]
      have hlt : n / 10 < n := Nat.div_lt_self (by omega) (by decide)
      intro c hc
      rcases List.mem_append.mp hc with hc | hc
      · exact ih (n / 10) hlt c hc
      · simp only [List.mem_singleton] at hc
        subst hc
        exact isDigit_digitChar (Nat.mod_lt n (by decide))

theorem to_string_ne_nil (n : Nat) : to_string n ≠ [] := by
  by_cases h : n < 10
  · rw [to_string_small h]; simp
  · rw [to_string_big (Nat.le_of_not_lt h)]; simp

/-! ## Naming -/

theorem split_by_extension_cases (f : filename_t) :
    split_by_extension f = (f, []) ∨
      ∃ i, rfind f '.' = some i ∧ split_by_extension f = (f.take i, f.drop i) := by
  unfold split_by_extension
  cases h : rfind f '.' with
  | none => exact Or.inl rfl
  | some i =>
    by_cases h1 : i = 0 ∨ i = f.length - 1
    · simp [h1]
    · cases h2 : find_last_of f folder_seps_filename with
      | none => exact Or.inr ⟨i, rfl, by simp [h1]⟩
      | some j =>
        by_cases h3 : j ≥ i - 1
        · simp [h1, h3]
        · exact Or.inr ⟨i, rfl, by simp [h1, h3]⟩

theorem split_by_extension_append (f : filename_t) :
    (split_by_extension f).1 ++ (split_by_extension f).2 = f := by
  rcases split_by_extension_cases f with h | ⟨i, _, h⟩ <;> simp [h]

theorem drop_of_find_last {p : Char → Bool} {s : List Char} {i : Nat}
    (h : find_last p s = some i) :
    ∃ c, p c = true ∧ s.drop i = c :: s.drop (i + 1) ∧ ∀ d ∈ s.drop (i + 1), p d = false := by
  obtain ⟨c, hc, hs, hrest⟩ := find_last_some h
  refine ⟨c, hc, ?_, hrest⟩
  have hlt := find_last_lt h
  have hlen : (s.take i).length = i := by simp; omega
  have : s.drop i = (s.take i ++ c :: s.drop (i + 1)).drop i := by rw [← hs]
  rw [this, List.drop_append_of_le_length (by omega)]
  simp [List.drop_eq_nil_of_le, hlen]

theorem split_by_extension_ext (f : filename_t) :
    (split_by_extension f).2 = [] ∨
      ∃ e, (split_by_extension f).2 = '.' :: e ∧ '.' ∉ e := by
  rcases split_by_extension_cases f with h | ⟨i, hi, h⟩
  · left; simp [h]
  · right
    obtain ⟨c, hc, hd, hrest⟩ := drop_of_find_last hi
    have hc' : c = '.' := by simpa using hc
    subst hc'
    refine ⟨f.drop (i + 1), by simp [h, hd], ?_⟩
    intro hmem
    have := hrest _ hmem
    simp at this

theorem calc_filename_zero (f : filename_t) : calc_filename f 0 = f := by
  simp [calc_filename]

theorem calc_filename_pos (f : filename_t) {i : Nat} (h : 0 < i) :
    calc_filename f i =
      (split_by_extension f).1 ++ ['.'] ++ to_string i ++ (split_by_extension f).2 := by
  have : i ≠ 0 := by omega
  simp [calc_filename, this]

theorem calc_filename_ne_nil (f : filename_t) {i : Nat} (h : 0 < i) : calc_filename f i ≠ [] := by
  rw [calc_filename_pos f h]
  simp

theorem calc_filename_length (f : filename_t) {i : Nat} (h : 0 < i) :
    (calc_filename f i).length = f.length + 1 + (to_string i).length := by
  rw [calc_filename_pos f h]
  have := congrArg List.length (split_by_extension_append f)
  simp only [List.length_append, List.length_cons, List.length_nil] at this ⊢
  omega

theorem calc_filename_injective (f : filename_t) {i j : Nat}
    (h : calc_filename f i = calc_filename f j) : i = j := by
  rcases Nat.eq_zero_or_pos i with hi | hi <;> rcases Nat.eq_zero_or_pos j with hj | hj
  · omega
  · subst hi
    have := congrArg List.length h
    rw [calc_filename_zero, calc_filename_length f hj] at this
    omega
  · subst hj
    have := congrArg List.length h
    rw [calc_filename_zero, calc_filename_length f hi] at this
    omega
  · rw [calc_filename_pos f hi, calc_filename_pos f hj] at h
    have h1 := List.append_cancel_right h
    have h2 := List.append_cancel_left h1
    exact to_string_injective h2

/-! ## The operating system and the rotation loop -/

theorem files_of_not_path_exists {w : World} {p : filename_t}
    (h : os.path_exists w p = false) (hp : p ≠ []) : w.files p = none := by
  unfold os.path_exists at h
  cases hf : w.files p with
  | none => rfl
  | some c =>
    cases p with
    | nil => exact absurd rfl hp
    | cons x xs => simp [hf] at h

theorem path_exists_of_files {w : World} {p : filename_t} {c : memory_buf_t}
    (h : w.files p = some c) (hp : p ≠ []) : os.path_exists w p = true := by
  cases p with
  | nil => exact absurd rfl hp
  | cons x xs => simp [os.path_exists, h]

theorem rename_file_dirs (w : World) (src tgt : filename_t) :
    (rename_file_ w src tgt).2.dirs = w.dirs := by
  unfold rename_file_ os.rename os.remove
  dsimp only
  split
  · rfl
  · split <;> rfl

theorem rename_file_ok {w : World} {src tgt : filename_t} (hne : src ≠ tgt)
    (h : (rename_file_ w src tgt).1 = true) :
    ∃ c, w.files src = some c ∧
      ∀ q, (rename_file_ w src tgt).2.files q =
        if q = tgt then some c else if q = src then none else w.files q := by
  unfold rename_file_ os.rename os.remove at h ⊢
  dsimp only at h ⊢
  simp only [hne, if_false] at h ⊢
  cases hs : w.files src with
  | none => simp [hs] at h
  | some c =>
    refine ⟨c, rfl, ?_⟩
    intro q
    simp only [hs] at h ⊢
    split at h
    · simp at h
    · by_cases hq : q = tgt
      · simp [hq]
      · simp [hq]

theorem rename_file_fail {w : World} {src tgt : filename_t} (hne : src ≠ tgt)
    (h : (rename_file_ w src tgt).1 = false) :
    ∀ q, (rename_file_ w src tgt).2.files q = if q = tgt then none else w.files q := by
  unfold rename_file_ os.rename os.remove at h ⊢
  dsimp only at h ⊢
  simp only [hne, if_false] at h ⊢
  intro q
  cases hs : w.files src with
  | none => simp
  | some c =>
    simp only [hs] at h ⊢
    split at h
    · rfl
    · simp at h

/-- One turn of the loop of `rotate_` that does not end in a failure either skips a missing
source or moves it onto the next slot, on the first or on the second attempt. -/
theorem rotate_loop_succ {b : filename_t} (hb : b ≠ []) {m : Nat} {w w' : World}
    (h : rotate_loop b (m + 1) w = (true, w')) :
    (w.files (calc_filename b m) = none ∧ rotate_loop b m w = (true, w')) ∨
    ∃ c w1, w.files (calc_filename b m) = some c ∧ w1.dirs = w.dirs ∧
      (∀ q, w1.files q = if q = calc_filename b (m + 1) then some c
        else if q = calc_filename b m then none else w.files q) ∧
      rotate_loop b m w1 = (true, w') := by
  have hsrc : calc_filename b m ≠ [] := by
    rcases Nat.eq_zero_or_pos m with hm | hm
    · subst hm; rw [calc_filename_zero]; exact hb
    · exact calc_filename_ne_nil b hm
  have hne : calc_filename b m ≠ calc_filename b (m + 1) := by
    intro e
    have := calc_filename_injective b e
    omega
  simp only [rotate_loop] at h
  by_cases hex : os.path_exists w (calc_filename b m) = true
  · simp only [hex, Bool.not_true, Bool.false_eq_true, if_false] at h
    right
    by_cases h1 : (rename_file_ w (calc_filename b m) (calc_filename b (m + 1))).1 = true
    · simp only [h1, if_true] at h
      obtain ⟨c, hc, hq⟩ := rename_file_ok hne h1
      exact ⟨c, _, hc, rename_file_dirs _ _ _, hq, h⟩
    · simp only [h1, if_false] at h
      have h1' := rename_file_fail hne (by simpa using h1)
      by_cases h2 : (rename_file_ (rename_file_ w (calc_filename b m) (calc_filename b (m + 1))).2
          (calc_filename b m) (calc_filename b (m + 1))).1 = true
      · simp only [h2, if_true] at h
        obtain ⟨c, hc, hq⟩ := rename_file_ok hne h2
        refine ⟨c, _, ?_, ?_, ?_, h⟩
        · rw [h1'] at hc
          simpa [hne] using hc
        · rw [rename_file_dirs, rename_file_dirs]
        · intro q
          rw [hq q, h1' q]
          by_cases e : q = calc_filename b (m + 1) <;> simp [e]
      · simp [h2] at h
  · left
    have hex' : os.path_exists w (calc_filename b m) = false := by simpa using hex
    simp only [hex', Bool.not_false, if_true] at h
    exact ⟨files_of_not_path_exists hex' hsrc, h⟩

/-- What the loop of `rotate_` leaves when no rename fails twice: every slot below the bound
has moved one index up, the last slot keeps its content only when nothing was moved onto it,
index 0 is vacated, and no other file changes. -/
theorem rotate_loop_ok {b : filename_t} (hb : b ≠ []) :
    ∀ (m : Nat) (w w' : World), rotate_loop b m w = (true, w') →
      w'.dirs = w.dirs ∧
      (∀ q, (∀ i, i ≤ m → q ≠ calc_filename b i) → w'.files q = w.files q) ∧
      (∀ i, 1 ≤ i → i < m → w'.files (calc_filename b i) = w.files (calc_filename b (i - 1))) ∧
      (1 ≤ m → w'.files (calc_filename b m) =
        if (w.files (calc_filename b (m - 1))).isSome then w.files (calc_filename b (m - 1))
        else w.files (calc_filename b m)) ∧
      (1 ≤ m → w'.files (calc_filename b 0) = none) := by
  intro m
  induction m with
  | zero =>
    intro w w' h
    simp only [rotate_loop, Prod.mk.injEq, true_and] at h
    subst h
    refine ⟨rfl, fun _ _ => rfl, ?_, ?_, ?_⟩
    · intro i h1 h2; omega
    · intro h1; omega
    · intro h1; omega
  | succ m ih =>
    intro w w' h
    have inj : ∀ {i j : Nat}, i ≠ j → calc_filename b i ≠ calc_filename b j :=
      fun hij e => hij (calc_filename_injective b e)
    rcases rotate_loop_succ hb h with ⟨hnone, hrest⟩ | ⟨c, w1, hc, hdirs, hw1, hrest⟩
    · obtain ⟨hd, hframe, hmid, htop, hzero⟩ := ih w w' hrest
      refine ⟨hd, ?_, ?_, ?_, ?_⟩
      · intro q hq
        exact hframe q (fun i hi => hq i (by omega))
      · intro i h1 h2
        rcases Nat.lt_or_ge i m with hlt | hge
        · exact hmid i h1 hlt
        · have him : i = m := by omega
          subst him
          rw [htop h1, hnone]
          cases hprev : w.files (calc_filename b (i - 1)) <;> simp
      · intro _
        simp only [Nat.add_sub_cancel, hnone, Option.isSome_none, Bool.false_eq_true, if_false]
        exact hframe _ (fun i hi => inj (by omega))
      · intro _
        rcases Nat.eq_zero_or_pos m with hm | hm
        · subst hm
          simp only [rotate_loop, Prod.mk.injEq, true_and] at hrest
          subst hrest
          exact hnone
        · exact hzero hm
    · obtain ⟨hd, hframe, hmid, htop, hzero⟩ := ih w1 w' hrest
      refine ⟨by rw [hd, hdirs], ?_, ?_, ?_, ?_⟩
      · intro q hq
        rw [hframe q (fun i hi => hq i (by omega)), hw1 q]
        simp [hq (m + 1) (Nat.le_refl _), hq m (Nat.le_succ m)]
      · intro i h1 h2
        rcases Nat.lt_or_ge i m with hlt | hge
        · rw [hmid i h1 hlt, hw1]
          simp [inj (show i - 1 ≠ m + 1 by omega), inj (show i - 1 ≠ m by omega)]
        · have him : i = m := by omega
          subst him
          rw [htop h1, hw1 (calc_filename b i), hw1 (calc_filename b (i - 1))]
          simp only [inj (show i ≠ i + 1 by omega), inj (show i - 1 ≠ i + 1 by omega),
            inj (show i - 1 ≠ i by omega), if_false, if_true]
          cases hprev : w.files (calc_filename b (i - 1)) <;> simp
      · intro _
        simp only [Nat.add_sub_cancel, hc, Option.isSome_some, if_true]
        rw [hframe _ (fun i hi => inj (show m + 1 ≠ i by omega)), hw1]
        simp
      · intro _
        rcases Nat.eq_zero_or_pos m with hm | hm
        · subst hm
          simp only [rotate_loop, Prod.mk.injEq, true_and] at hrest
          subst hrest
          rw [hw1]
          simp [inj (show 0 ≠ 0 + 1 by omega)]
        · exact hzero hm

/-! ## Rotation -/

theorem rotate_threw_iff (s : sink) (w : World) :
    (rotate_ s w).threw = false ↔
      (rotate_loop s.base_filename_ s.max_files_
        (s.file_helper_.close { w with trace := Event.rotate :: w.trace }).2).1 = true := by
  unfold rotate_
  dsimp only
  split <;> simp_all

/-- The sink and the files that a `rotate_` without a twice-failed rename leaves, in terms of
the world that the loop leaves. -/
theorem rotate_unfold {s : sink} {w : World} (hok : (rotate_ s w).threw = false) :
    ∃ w2, rotate_loop s.base_filename_ s.max_files_
        (s.file_helper_.close { w with trace := Event.rotate :: w.trace }).2 = (true, w2) ∧
      (rotate_ s w).s =
        { s with file_helper_ := { filename_ := s.file_helper_.filename_, pending := [] } } ∧
      (∀ q, (rotate_ s w).w.files q =
        if q = s.file_helper_.filename_ then some [] else w2.files q) ∧
      (rotate_ s w).w.trace = w2.trace ∧
      (rotate_ s w).w.rename_fail = w2.rename_fail := by
  have h1 := (rotate_threw_iff s w).mp hok
  refine ⟨(rotate_loop s.base_filename_ s.max_files_
        (s.file_helper_.close { w with trace := Event.rotate :: w.trace }).2).2, ?_, ?_, ?_, ?_, ?_⟩
  · rw [← h1]
  · unfold rotate_
    dsimp only
    rw [if_pos h1]
    rfl
  · intro q
    unfold rotate_
    dsimp only
    rw [if_pos h1]
    simp only [file_helper.reopen, file_helper.open_, file_helper.close, file_helper.flush]
    by_cases hq : q = s.file_helper_.filename_ <;> simp [hq]
  · unfold rotate_
    dsimp only
    rw [if_pos h1]
    rfl
  · unfold rotate_
    dsimp only
    rw [if_pos h1]
    rfl

theorem close_files (h : file_helper) (w : World) (q : filename_t) :
    (h.close w).2.files q =
      if q = h.filename_ then (w.files q).map (fun c => c ++ h.pending) else w.files q := rfl

theorem slot_before_close (s : sink) (w : World) (hf : s.file_helper_.filename_ = s.base_filename_)
    (j : Nat) :
    (s.file_helper_.close { w with trace := Event.rotate :: w.trace }).2.files
      (calc_filename s.base_filename_ j) = slot_before s w j := by
  rw [close_files]
  rcases Nat.eq_zero_or_pos j with hj | hj
  · subst hj
    simp [slot_before, active_content, calc_filename_zero, hf]
  · have hne : calc_filename s.base_filename_ j ≠ s.file_helper_.filename_ := by
      rw [hf]
      intro e
      have := calc_filename_injective s.base_filename_ (e.trans (calc_filename_zero _).symm)
      omega
    have hj0 : j ≠ 0 := by omega
    simp [hne, slot_before, slot, hj0]

/-- Effect of a `rotate_` that does not throw on the whole chain of slots. -/
theorem rotate_chain (s : sink) (w : World) (hwf : s.wf)
    (hok : (rotate_ s w).threw = false) :
    slot (rotate_ s w).w s.base_filename_ 0 = some [] ∧
    (rotate_ s w).s.file_helper_.pending = [] ∧
    active_content (rotate_ s w).s (rotate_ s w).w = some [] ∧
    (∀ i, 1 ≤ i → i < s.max_files_ →
      slot (rotate_ s w).w s.base_filename_ i = slot_before s w (i - 1)) ∧
    (1 ≤ s.max_files_ → slot (rotate_ s w).w s.base_filename_ s.max_files_ =
      if (slot_before s w (s.max_files_ - 1)).isSome then slot_before s w (s.max_files_ - 1)
      else slot w s.base_filename_ s.max_files_) ∧
    (∀ i, s.max_files_ < i →
      slot (rotate_ s w).w s.base_filename_ i = slot w s.base_filename_ i) := by
  obtain ⟨hb, hf, -, -, -⟩ := hwf
  obtain ⟨w2, hloop, hs, hfiles, -, -⟩ := rotate_unfold hok
  obtain ⟨-, hframe, hmid, htop, -⟩ := rotate_loop_ok hb _ _ _ hloop
  have inj : ∀ {i j : Nat}, i ≠ j → calc_filename s.base_filename_ i ≠ calc_filename s.base_filename_ j :=
    fun hij e => hij (calc_filename_injective s.base_filename_ e)
  have hpos : ∀ i, 1 ≤ i → (rotate_ s w).w.files (calc_filename s.base_filename_ i) =
      w2.files (calc_filename s.base_filename_ i) := by
    intro i hi
    rw [hfiles, hf]
    have := inj (show i ≠ 0 by omega)
    rw [calc_filename_zero] at this
    simp [this]
  have hmid' : ∀ i, 1 ≤ i → i < s.max_files_ →
      slot (rotate_ s w).w s.base_filename_ i = slot_before s w (i - 1) := by
    intro i h1 h2
    show (rotate_ s w).w.files _ = _
    rw [hpos i h1, hmid i h1 h2, slot_before_close s w hf]
  have htop' : 1 ≤ s.max_files_ → slot (rotate_ s w).w s.base_filename_ s.max_files_ =
      if (slot_before s w (s.max_files_ - 1)).isSome then slot_before s w (s.max_files_ - 1)
      else slot w s.base_filename_ s.max_files_ := by
    intro h1
    show (rotate_ s w).w.files _ = _
    rw [hpos _ h1, htop h1, slot_before_close s w hf, slot_before_close s w hf]
    have h0 : s.max_files_ ≠ 0 := by omega
    simp [slot_before, h0]
  have h0 : slot (rotate_ s w).w s.base_filename_ 0 = some [] := by
    show (rotate_ s w).w.files _ = _
    rw [hfiles, calc_filename_zero, hf]
    simp
  refine ⟨h0, by rw [hs], ?_, hmid', htop', ?_⟩
  · have : (rotate_ s w).w.files s.file_helper_.filename_ = some [] := by
      rw [hfiles]; simp
    simp [active_content, hs, this]
  · intro i hi
    show (rotate_ s w).w.files _ = _
    rw [hpos i (by omega), hframe _ (fun j hj => inj (show i ≠ j by omega))]
    have := slot_before_close s w hf i
    have hi0 : i ≠ 0 := by omega
    simpa [slot_before, hi0] using this

/-- C2: a `rotate_` in which no rename fails twice leaves the active file existing and empty
(nothing pending in the handle); every slot `i` with `1 <= i < max_files` holds exactly what
slot `i-1` held before the call, and is absent if that slot was absent; slot `max_files` holds
what slot `max_files-1` held, or keeps its own content if that slot was absent; every file at an
index above `max_files` is unchanged; and no content of a slot below `max_files` is lost: it is
found one index up. -/
theorem rotate_shifts_chain (s : sink) (w : World) (hwf : s.wf)
    (hok : (rotate_ s w).threw = false) :
    slot (rotate_ s w).w s.base_filename_ 0 = some [] ∧
    (rotate_ s w).s.file_helper_.pending = [] ∧
    active_content (rotate_ s w).s (rotate_ s w).w = some [] ∧
    (∀ i, 1 ≤ i → i < s.max_files_ →
      slot (rotate_ s w).w s.base_filename_ i = slot_before s w (i - 1)) ∧
    (1 ≤ s.max_files_ → slot (rotate_ s w).w s.base_filename_ s.max_files_ =
      if (slot_before s w (s.max_files_ - 1)).isSome then slot_before s w (s.max_files_ - 1)
      else slot w s.base_filename_ s.max_files_) ∧
    (∀ i, s.max_files_ < i →
      slot (rotate_ s w).w s.base_filename_ i = slot w s.base_filename_ i) ∧
    (∀ j c, j < s.max_files_ → slot_before s w j = some c →
      slot (rotate_ s w).w s.base_filename_ (j + 1) = some c) := by
  obtain ⟨h0, hpend, hact, hmid, htop, habove⟩ := rotate_chain s w hwf hok
  refine ⟨h0, hpend, hact, hmid, htop, habove, ?_⟩
  intro j c hj hc
  rcases Nat.lt_or_ge (j + 1) s.max_files_ with hlt | hge
  · rw [hmid (j + 1) (by omega) hlt]
    simpa using hc
  · have hjm : j + 1 = s.max_files_ := by omega
    have := htop (by omega)
    rw [← hjm] at this
    rw [this]
    simp [hc]

/-! ## Archive names never meet the rotation chain -/

theorem mem_of_append_eq_append_singleton {xs ys us : List Char} {c : Char}
    (h : xs ++ ys = us ++ [c]) (hy : ys ≠ []) : c ∈ ys := by
  rcases List.append_eq_append_iff.mp h with ⟨a, -, h2⟩ | ⟨b, -, h2⟩
  · rw [h2]; simp
  · cases b with
    | nil =>
      simp only [List.nil_append] at h2
      rw [← h2]; simp
    | cons x t =>
      have := congrArg List.length h2
      cases ys with
      | nil => exact absurd rfl hy
      | cons y t2 => simp at this

theorem split_at_last_char {xs ys e e2 : List Char} {c : Char}
    (h : xs ++ c :: e = ys ++ c :: e2) (he : c ∉ e) (he2 : c ∉ e2) : xs = ys ∧ e = e2 := by
  rcases List.append_eq_append_iff.mp h with ⟨a, h1, h2⟩ | ⟨a, h1, h2⟩
  · cases a with
    | nil => simp at h1 h2; exact ⟨h1.symm, h2⟩
    | cons x t =>
      simp only [List.cons_append, List.cons.injEq] at h2
      exact absurd (by rw [h2.2]; simp) he
  · cases a with
    | nil => simp at h1 h2; exact ⟨h1, h2.symm⟩
    | cons x t =>
      simp only [List.cons_append, List.cons.injEq] at h2
      exact absurd (by rw [h2.2]; simp) he2

theorem no_char_in_long_suffix {xs ys us vs : List Char} {c : Char}
    (h : xs ++ c :: ys = us ++ vs) (hc : c ∉ vs) (hlen : ys.length < vs.length) : False := by
  rcases List.append_eq_append_iff.mp h with ⟨a, -, h2⟩ | ⟨b, -, h2⟩
  · cases a with
    | nil =>
      simp only [List.nil_append] at h2
      exact hc (by rw [← h2]; simp)
    | cons x t =>
      have := congrArg List.length h2
      simp at this
      omega
  · exact hc (by rw [h2]; simp)

theorem find_last_congr {p q : Char → Bool} :
    ∀ {s : List Char}, (∀ c ∈ s, p c = q c) → find_last p s = find_last q s := by
  intro s
  induction s with
  | nil => intro _; rfl
  | cons x xs ih =>
    intro h
    have h1 := ih (fun c hc => h c (List.mem_cons_of_mem _ hc))
    have h2 := h x (List.mem_cons_self _ _)
    simp only [find_last, h1, h2]

theorem not_digit_of_mem {n : Nat} {c : Char} (h : c ∈ to_string n) (hc : c.isDigit = false) :
    False := by
  have := to_string_isDigit n c h
  rw [hc] at this
  exact absurd this (by decide)

/-- The tail that every archive name adds to its basename when the extension is empty or is
".zip": a dot, the index, ".zip". -/
theorem archive_tail_props (k : Nat) :
    ('.' :: to_string k ++ ".zip".toList) ≠ [] ∧ '\\' ∉ ('.' :: to_string k ++ ".zip".toList) := by
  refine ⟨by simp, ?_⟩
  intro h
  rcases List.mem_cons.mp h with h | h
  · exact absurd h (by decide)
  · rcases List.mem_append.mp h with h | h
    · exact not_digit_of_mem h (by decide)
    · exact absurd h (by decide)

/-- The path that the constructor splits into `dir_` and `basename_` is never their
recomposition followed by a non-empty text without backslash. -/
theorem stem_ne_recomposed {stem X : filename_t} (hdir : os.dir_name stem ≠ [])
    (hX : X ≠ []) (hbs : '\\' ∉ X) :
    stem ≠ os.dir_name stem ++ "/".toList ++ basename_of stem ++ X := by
  intro heq
  cases hq : rfind stem '\\' with
  | some q =>
    obtain ⟨c, hc, hs, hrest⟩ := find_last_some hq
    have hc' : c = '\\' := by simpa using hc
    subst hc'
    have hbase : basename_of stem = stem.drop (q + 1) := by
      simp [basename_of, hq]
    rw [hbase] at heq
    have h1 : stem.take q ++ '\\' :: stem.drop (q + 1) =
        os.dir_name stem ++ ("/".toList ++ stem.drop (q + 1) ++ X) := by
      rw [← hs]
      simpa [List.append_assoc] using heq
    refine no_char_in_long_suffix h1 ?_ (by simp; cases X with
      | nil => exact absurd rfl hX
      | cons x t => simp; omega)
    intro hmem
    simp only [List.mem_append] at hmem
    rcases hmem with (hmem | hmem) | hmem
    · exact absurd hmem (by decide)
    · have := hrest _ hmem
      simp at this
    · exact hbs hmem
  | none =>
    have hno : ∀ c ∈ stem, (c == '\\') = false := find_last_none hq
    have hsame : find_last_of stem folder_seps_filename = rfind stem '/' := by
      apply find_last_congr
      intro c hc
      have := hno c hc
      simp only [beq_eq_false_iff_ne, ne_eq] at this
      by_cases h1 : c = '/'
      · subst h1; decide
      · simp [folder_seps_filename, this, h1]
    cases hp : rfind stem '/' with
    | none =>
      exact hdir (by simp [os.dir_name, hsame, hp])
    | some pos =>
      obtain ⟨c, hc, hs, -⟩ := find_last_some hp
      have hc' : c = '/' := by simpa using hc
      subst hc'
      have hbase : basename_of stem = stem.drop (pos + 1) := by
        simp [basename_of, hq, hp]
      have hd : os.dir_name stem = stem.take pos := by
        simp [os.dir_name, hsame, hp]
      rw [hbase, hd] at heq
      have h2 : stem.take pos ++ "/".toList ++ stem.drop (pos + 1) = stem := by
        simpa [List.append_assoc] using hs.symm
      rw [h2] at heq
      have := congrArg List.length heq
      simp only [List.length_append] at this
      cases X with
      | nil => exact absurd rfl hX
      | cons x t => simp at this

theorem compress_basename_of_dir {s : sink} (h : s.dir_ ≠ []) :
    compress_basename s = s.dir_ ++ "/".toList ++ s.basename_ := by
  unfold compress_basename
  cases hd : s.dir_ with
  | nil => exact absurd hd h
  | cons x t => simp

theorem zip_tail_ne_index (body stem : filename_t) (n : Nat) :
    body ++ ".zip".toList ≠ stem ++ ['.'] ++ to_string n := by
  intro e
  have : 'p' ∈ to_string n :=
    mem_of_append_eq_append_singleton
      (show (stem ++ ['.']) ++ to_string n = (body ++ ".zi".toList) ++ ['p'] by
        rw [← e]; simp)
      (to_string_ne_nil _)
  exact not_digit_of_mem this (by decide)

/-- A path split into stem and extension, and the same path with an index before the
extension, differ from every archive name built on the recomposed stem. -/
theorem archive_clash_core (stem ext : filename_t)
    (hext : ext = [] ∨ ∃ e, ext = '.' :: e ∧ '.' ∉ e) (hdir : os.dir_name stem ≠ [])
    (k n : Nat) :
    stem ++ ext ≠
        archive_name (os.dir_name stem ++ "/".toList ++ basename_of stem) ext k ∧
      stem ++ ['.'] ++ to_string n ++ ext ≠
        archive_name (os.dir_name stem ++ "/".toList ++ basename_of stem) ext k := by
  have hnodot : '.' ∉ compress_ext := by decide
  obtain ⟨hX, hbs⟩ := archive_tail_props k
  have hrec := stem_ne_recomposed hdir hX hbs
  rcases hext with hnil | ⟨e, he, hdot⟩
  · subst hnil
    constructor
    · intro heq
      rw [List.append_nil] at heq
      exact hrec (heq.trans (by simp [archive_name, compress_ext]))
    · intro heq
      rw [List.append_nil] at heq
      refine zip_tail_ne_index (os.dir_name stem ++ "/".toList ++ basename_of stem ++
        ['.'] ++ to_string k) stem n ?_
      rw [heq]
      simp [archive_name, compress_ext]
  · subst he
    constructor
    · intro heq
      have h1 : stem ++ '.' :: e =
          (os.dir_name stem ++ "/".toList ++ basename_of stem ++ ['.'] ++ to_string k ++
            '.' :: e) ++ '.' :: compress_ext := by
        rw [heq]
        simp [archive_name]
      obtain ⟨h2, h3⟩ := split_at_last_char h1 hdot hnodot
      subst h3
      exact hrec (h2.trans (by simp [compress_ext]))
    · intro heq
      have h1 : (stem ++ ['.'] ++ to_string n) ++ '.' :: e =
          (os.dir_name stem ++ "/".toList ++ basename_of stem ++ ['.'] ++ to_string k ++
            '.' :: e) ++ '.' :: compress_ext := by
        rw [heq]
        simp [archive_name]
      obtain ⟨h2, h3⟩ := split_at_last_char h1 hdot hnodot
      refine zip_tail_ne_index (os.dir_name stem ++ "/".toList ++ basename_of stem ++
        ['.'] ++ to_string k) stem n ?_
      rw [h2, h3]
      simp [compress_ext]

/-- No archive name of a well-formed sink with a folder is a name of its rotation chain. -/
theorem archive_name_ne_calc_filename {s : sink} (hwf : s.wf) (hdir : s.dir_ ≠ [])
    (k i : Nat) :
    calc_filename s.base_filename_ i ≠ archive_name (compress_basename s) s.file_ext_ k := by
  obtain ⟨-, -, hext, hd, hbn⟩ := hwf
  rw [compress_basename_of_dir hdir, hext, hd, hbn]
  rw [hd] at hdir
  have hcore := archive_clash_core _ _ (split_by_extension_ext s.base_filename_) hdir k i
  rcases Nat.eq_zero_or_pos i with hi | hi
  · subst hi
    rw [calc_filename_zero]
    have := hcore.1
    rwa [split_by_extension_append] at this
  · rw [calc_filename_pos _ hi]
    exact hcore.2

/-! ## Staging of archives: what it leaves alone -/

theorem rename_file_frame (w : World) (src tgt q : filename_t) (h1 : q ≠ src) (h2 : q ≠ tgt) :
    (rename_file_ w src tgt).2.files q = w.files q := by
  unfold rename_file_ os.rename os.remove
  dsimp only
  split
  · simp [h2]
  · split <;> simp [h1, h2]

theorem rename_file_rotations (w : World) (src tgt : filename_t) :
    rotations (rename_file_ w src tgt).2 = rotations w := by
  unfold rename_file_ os.rename os.remove rotations
  dsimp only
  split
  · simp [List.countP_cons, Event.is_rotate]
  · split <;> simp [List.countP_cons, Event.is_rotate]

theorem rename_file_renames (w : World) (src tgt : filename_t) :
    renames (rename_file_ w src tgt).2 = renames w + 1 := by
  unfold rename_file_ os.rename os.remove renames
  dsimp only
  split
  · simp [List.countP_cons, Event.is_rotate]
  · split <;> simp [List.countP_cons, Event.is_rotate]

theorem shift_fold_frame (name : Nat → filename_t) (q : filename_t) (hq : ∀ k, q ≠ name k) :
    ∀ (l : List Nat) (w : World),
      (l.foldl (fun acc index => (rename_file_ acc (name (index + 1)) (name index)).2) w).files q
        = w.files q := by
  intro l
  induction l with
  | nil => intro w; rfl
  | cons a t ih =>
    intro w
    rw [List.foldl_cons, ih, rename_file_frame _ _ _ _ (hq _) (hq _)]

theorem shift_fold_dirs (name : Nat → filename_t) :
    ∀ (l : List Nat) (w : World),
      (l.foldl (fun acc index => (rename_file_ acc (name (index + 1)) (name index)).2) w).dirs
        = w.dirs := by
  intro l
  induction l with
  | nil => intro w; rfl
  | cons a t ih =>
    intro w
    rw [List.foldl_cons, ih, rename_file_dirs]

theorem shift_fold_rotations (name : Nat → filename_t) :
    ∀ (l : List Nat) (w : World),
      rotations (l.foldl (fun acc index => (rename_file_ acc (name (index + 1)) (name index)).2) w)
        = rotations w := by
  intro l
  induction l with
  | nil => intro w; rfl
  | cons a t ih =>
    intro w
    rw [List.foldl_cons, ih, rename_file_rotations]

theorem path_exists_nil (w : World) : os.path_exists w [] = false := rfl

/-- The world that `compressW_` leaves is the one it found, or the one with the archives
shifted, the latter only when the folder `dir_` exists. -/
theorem compress_world (s : sink) (w : World) :
    (compressW_ s w).w = w ∨
      (s.dir_ ≠ [] ∧ os.path_exists w s.dir_ = true ∧ s.max_compressed_files_ ≠ 0 ∧
        os.path_exists w (archive_name (compress_basename s) s.file_ext_ s.max_compressed_files_)
          = true ∧
        (compressW_ s w).w =
          shift_archives (compress_basename s) s.file_ext_ s.max_compressed_files_ w) := by
  unfold compressW_
  by_cases h0 : s.max_compressed_files_ = 0
  · left; simp [h0]
  · by_cases h1 : os.path_exists w s.dir_ = true
    · by_cases h2 : os.path_exists w
          (archive_name (compress_basename s) s.file_ext_ s.max_compressed_files_) = true
      · right
        refine ⟨?_, h1, h0, h2, ?_⟩
        · intro hd
          rw [hd, path_exists_nil] at h1
          exact absurd h1 (by decide)
        · simp [h0, h1, h2]
      · left; simp [h0, h1, h2]
    · left; simp [h0, h1]

theorem compress_files_frame (s : sink) (w : World) (q : filename_t)
    (hq : s.dir_ ≠ [] → ∀ k, q ≠ archive_name (compress_basename s) s.file_ext_ k) :
    (compressW_ s w).w.files q = w.files q := by
  rcases compress_world s w with h | ⟨hd, -, -, -, h⟩
  · rw [h]
  · rw [h]
    exact shift_fold_frame _ q (hq hd) _ w

theorem compress_dirs (s : sink) (w : World) : (compressW_ s w).w.dirs = w.dirs := by
  rcases compress_world s w with h | ⟨-, -, -, -, h⟩
  · rw [h]
  · rw [h]
    exact shift_fold_dirs _ _ w

theorem compress_rotations (s : sink) (w : World) :
    rotations (compressW_ s w).w = rotations w := by
  rcases compress_world s w with h | ⟨-, -, -, -, h⟩
  · rw [h]
  · rw [h]
    exact shift_fold_rotations _ _ w

/-- Staging leaves every slot of the rotation chain of a well-formed sink as it was. -/
theorem compress_slot (s : sink) (w : World) (hwf : s.wf) (i : Nat) :
    slot (compressW_ s w).w s.base_filename_ i = slot w s.base_filename_ i :=
  compress_files_frame s w _ (fun hd k => archive_name_ne_calc_filename hwf hd k i)

/-! ## Rotation and the ghost counters -/

theorem rotate_loop_rotations (b : filename_t) :
    ∀ (m : Nat) (w : World), rotations (rotate_loop b m w).2 = rotations w := by
  intro m
  induction m with
  | zero => intro w; rfl
  | succ m ih =>
    intro w
    simp only [rotate_loop]
    split
    · exact ih w
    · split
      · rw [ih, rename_file_rotations]
      · split
        · rw [ih, rename_file_rotations, rename_file_rotations]
        · rw [rename_file_rotations, rename_file_rotations]

theorem rotate_rotations (s : sink) (w : World) :
    rotations (rotate_ s w).w = rotations w + 1 := by
  have h : rotations (rotate_ s w).w =
      rotations (rotate_loop s.base_filename_ s.max_files_
        (s.file_helper_.close { w with trace := Event.rotate :: w.trace }).2).2 := by
    unfold rotate_
    dsimp only
    split <;> rfl
  rw [h, rotate_loop_rotations]
  simp [rotations, file_helper.close, file_helper.flush, List.countP_cons, Event.is_rotate]

/-! ## The three paths of `sink_it_` -/

theorem sink_it_plain {s : sink} {w : World} {f : memory_buf_t}
    (h1 : ¬ (s.current_size_ + f.length) % SIZE_MOD > s.max_size_) :
    sink_it_ s w f =
      { threw := false,
        s := { s with file_helper_ := s.file_helper_.write f,
                      current_size_ := (s.current_size_ + f.length) % SIZE_MOD },
        w := w } := by
  unfold sink_it_
  simp only [h1, if_false]

theorem sink_it_flushed {s : sink} {w : World} {f : memory_buf_t}
    (h1 : (s.current_size_ + f.length) % SIZE_MOD > s.max_size_)
    (h2 : ¬ real_size s w > 0) :
    sink_it_ s w f =
      { threw := false,
        s := { s with file_helper_ := (s.file_helper_.flush w).1.write f,
                      current_size_ := (s.current_size_ + f.length) % SIZE_MOD },
        w := (s.file_helper_.flush w).2 } := by
  unfold real_size at h2
  unfold sink_it_
  simp only [h1, h2, if_true, if_false]

theorem sink_it_rotated {s : sink} {w : World} {f : memory_buf_t}
    (h1 : (s.current_size_ + f.length) % SIZE_MOD > s.max_size_)
    (h2 : real_size s w > 0) :
    sink_it_ s w f =
      if (rotate_ (flushed_sink s w) (s.file_helper_.flush w).2).threw then
        rotate_ (flushed_sink s w) (s.file_helper_.flush w).2
      else
        { threw := false,
          s := { (rotate_ (flushed_sink s w) (s.file_helper_.flush w).2).s with
            file_helper_ :=
              (rotate_ (flushed_sink s w) (s.file_helper_.flush w).2).s.file_helper_.write f,
            current_size_ := f.length },
          w := (compressW_ (rotate_ (flushed_sink s w) (s.file_helper_.flush w).2).s
            (rotate_ (flushed_sink s w) (s.file_helper_.flush w).2).w).w } := by
  unfold real_size at h2
  unfold sink_it_ flushed_sink
  simp only [h1, h2, if_true]

theorem flushed_sink_wf {s : sink} (hwf : s.wf) (w : World) : (flushed_sink s w).wf := hwf

theorem flush_rotations (h : file_helper) (w : World) : rotations (h.flush w).2 = rotations w :=
  rfl

theorem active_content_flush (s : sink) (w : World) :
    active_content (flushed_sink s w) (s.file_helper_.flush w).2 = active_content s w := by
  unfold active_content flushed_sink file_helper.flush
  simp
  cases w.files s.file_helper_.filename_ <;> simp

theorem rotate_wf {s : sink} {w : World} (hwf : s.wf) (hok : (rotate_ s w).threw = false) :
    (rotate_ s w).s.wf := by
  obtain ⟨-, -, hs, -, -, -⟩ := rotate_unfold hok
  rw [hs]
  exact hwf

theorem rotate_fields {s : sink} {w : World} (hok : (rotate_ s w).threw = false) :
    (rotate_ s w).s.base_filename_ = s.base_filename_ ∧
    (rotate_ s w).s.file_helper_.filename_ = s.file_helper_.filename_ ∧
    (rotate_ s w).s.max_size_ = s.max_size_ ∧
    (rotate_ s w).s.max_files_ = s.max_files_ ∧
    (rotate_ s w).s.max_compressed_files_ = s.max_compressed_files_ := by
  obtain ⟨-, -, hs, -, -, -⟩ := rotate_unfold hok
  rw [hs]
  exact ⟨rfl, rfl, rfl, rfl, rfl⟩

/-- After the rotating path of `sink_it_` without a twice-failed rename, the active file holds
exactly the record and the size counter is its length. -/
theorem sink_it_rotated_result {s : sink} {w : World} {f : memory_buf_t} (hwf : s.wf)
    (h1 : (s.current_size_ + f.length) % SIZE_MOD > s.max_size_)
    (h2 : real_size s w > 0) (hok : (sink_it_ s w f).threw = false) :
    (rotate_ (flushed_sink s w) (s.file_helper_.flush w).2).threw = false ∧
    (sink_it_ s w f).s.current_size_ = f.length ∧
    active_content (sink_it_ s w f).s (sink_it_ s w f).w = some f ∧
    (∀ i, slot (sink_it_ s w f).w s.base_filename_ i =
      slot (rotate_ (flushed_sink s w) (s.file_helper_.flush w).2).w s.base_filename_ i) := by
  rw [sink_it_rotated h1 h2] at hok ⊢
  by_cases ht : (rotate_ (flushed_sink s w) (s.file_helper_.flush w).2).threw = true
  · rw [if_pos ht] at hok
    rw [ht] at hok
    exact absurd hok (by decide)
  · have ht' : (rotate_ (flushed_sink s w) (s.file_helper_.flush w).2).threw = false := by
      simpa using ht
    rw [if_neg ht]
    have hwf1 := flushed_sink_wf hwf w
    have hwf2 := rotate_wf hwf1 ht'
    obtain ⟨hb, hfn, -, -, -⟩ := rotate_fields ht'
    obtain ⟨h0, hpend, -, -, -, -⟩ := rotate_chain _ _ hwf1 ht'
    have hbase : (flushed_sink s w).base_filename_ = s.base_filename_ := rfl
    have hslots : ∀ i, slot (compressW_ (rotate_ (flushed_sink s w) (s.file_helper_.flush w).2).s
        (rotate_ (flushed_sink s w) (s.file_helper_.flush w).2).w).w s.base_filename_ i =
        slot (rotate_ (flushed_sink s w) (s.file_helper_.flush w).2).w s.base_filename_ i := by
      intro i
      have := compress_slot _ (rotate_ (flushed_sink s w) (s.file_helper_.flush w).2).w hwf2 i
      rwa [hb, hbase] at this
    refine ⟨ht', rfl, ?_, hslots⟩
    have h00 := hslots 0
    rw [hbase] at h0
    rw [h0] at h00
    unfold slot at h00
    rw [calc_filename_zero] at h00
    have hfile : (rotate_ (flushed_sink s w) (s.file_helper_.flush w).2).s.file_helper_.filename_
        = s.base_filename_ := by
      rw [hfn]; exact hwf.2.1
    simp only [active_content, file_helper.write, hfile, h00, hpend]
    simp

/-- C1: with `projected = active_size + len` (within `std::size_t`), `sink_it_` rotates exactly
when `projected > max_size` and the flushed active file has a real size above 0.  When it
rotates and no rename fails twice, `active_size` becomes `len` and the active file holds
exactly the record.  When it does not rotate, it returns normally, `active_size` becomes
`projected` and the record is appended to the unchanged previous content of the active file. -/
theorem sink_it_rotates_iff (s : sink) (w : World) (formatted : memory_buf_t) (hwf : s.wf)
    (hfit : s.current_size_ + formatted.length < SIZE_MOD) :
    (rotations (sink_it_ s w formatted).w = rotations w + 1 ↔
      (s.current_size_ + formatted.length > s.max_size_ ∧ real_size s w > 0)) ∧
    (rotations (sink_it_ s w formatted).w = rotations w ↔
      ¬ (s.current_size_ + formatted.length > s.max_size_ ∧ real_size s w > 0)) ∧
    ((s.current_size_ + formatted.length > s.max_size_ ∧ real_size s w > 0) →
      (sink_it_ s w formatted).threw = false →
      (sink_it_ s w formatted).s.current_size_ = formatted.length ∧
      active_content (sink_it_ s w formatted).s (sink_it_ s w formatted).w = some formatted) ∧
    (¬ (s.current_size_ + formatted.length > s.max_size_ ∧ real_size s w > 0) →
      (sink_it_ s w formatted).threw = false ∧
      (sink_it_ s w formatted).s.current_size_ = s.current_size_ + formatted.length ∧
      active_content (sink_it_ s w formatted).s (sink_it_ s w formatted).w =
        (active_content s w).map (fun c => c ++ formatted)) := by
  have hmod : (s.current_size_ + formatted.length) % SIZE_MOD =
      s.current_size_ + formatted.length := Nat.mod_eq_of_lt hfit
  by_cases h1 : s.current_size_ + formatted.length > s.max_size_
  · have h1' : (s.current_size_ + formatted.length) % SIZE_MOD > s.max_size_ := by
      rw [hmod]; exact h1
    by_cases h2 : real_size s w > 0
    · have hrot : rotations (sink_it_ s w formatted).w = rotations w + 1 := by
        rw [sink_it_rotated h1' h2]
        split
        · rw [rotate_rotations, flush_rotations]
        · show rotations (compressW_ _ _).w = _
          rw [compress_rotations, rotate_rotations, flush_rotations]
      refine ⟨⟨fun _ => ⟨h1, h2⟩, fun _ => hrot⟩, ⟨fun h => ?_, fun h => absurd ⟨h1, h2⟩ h⟩,
        fun _ hok => ?_, fun h => absurd ⟨h1, h2⟩ h⟩
      · rw [hrot] at h; omega
      · obtain ⟨-, hsz, hact, -⟩ := sink_it_rotated_result hwf h1' h2 hok
        exact ⟨hsz, hact⟩
    · have hsame : rotations (sink_it_ s w formatted).w = rotations w := by
        rw [sink_it_flushed h1' h2]
        rfl
      refine ⟨⟨fun h => ?_, fun h => absurd h.2 h2⟩, ⟨fun _ h => h2 h.2, fun _ => hsame⟩,
        fun h => absurd h.2 h2, fun _ => ?_⟩
      · rw [hsame] at h; omega
      · rw [sink_it_flushed h1' h2]
        refine ⟨rfl, hmod, ?_⟩
        simp only [active_content, file_helper.write, file_helper.flush]
        cases w.files s.file_helper_.filename_ <;> simp
  · have h1' : ¬ (s.current_size_ + formatted.length) % SIZE_MOD > s.max_size_ := by
      rw [hmod]; exact h1
    have hsame : rotations (sink_it_ s w formatted).w = rotations w := by
      rw [sink_it_plain h1']
    refine ⟨⟨fun h => ?_, fun h => absurd h.1 h1⟩, ⟨fun _ h => h1 h.1, fun _ => hsame⟩,
      fun h => absurd h.1 h1, fun _ => ?_⟩
    · rw [hsame] at h; omega
    · rw [sink_it_plain h1']
      refine ⟨rfl, hmod, ?_⟩
      simp only [active_content, file_helper.write]
      cases w.files s.file_helper_.filename_ <;> simp

/-! ## Sequences of writes and the history of the chain -/

theorem rotate_static (s : sink) (w : World) :
    (rotate_ s w).s =
      { s with
        file_helper_ := { filename_ := s.file_helper_.filename_, pending := [] },
        current_size_ := if (rotate_ s w).threw then 0 else s.current_size_ } := by
  unfold rotate_
  dsimp only
  split <;> rfl

theorem will_rotate_iff (s : sink) (w : World) (f : memory_buf_t) :
    will_rotate s w f = true ↔
      ((s.current_size_ + f.length) % SIZE_MOD > s.max_size_ ∧ real_size s w > 0) := by
  simp [will_rotate]

/-- Whatever path `sink_it_` takes, it changes only the handle and the size counter of the
sink, and the handle keeps its file name. -/
theorem sink_it_static (s : sink) (w : World) (f : memory_buf_t) :
    ∃ fh cs, (sink_it_ s w f).s = { s with file_helper_ := fh, current_size_ := cs } ∧
      fh.filename_ = s.file_helper_.filename_ := by
  by_cases h1 : (s.current_size_ + f.length) % SIZE_MOD > s.max_size_
  · by_cases h2 : real_size s w > 0
    · rw [sink_it_rotated h1 h2]
      split
      · rw [rotate_static]
        exact ⟨_, _, rfl, rfl⟩
      · dsimp only
        rw [rotate_static]
        exact ⟨_, _, rfl, rfl⟩
    · rw [sink_it_flushed h1 h2]
      exact ⟨_, _, rfl, rfl⟩
  · rw [sink_it_plain h1]
    exact ⟨_, _, rfl, rfl⟩

theorem sink_it_wf {s : sink} (hwf : s.wf) (w : World) (f : memory_buf_t) :
    (sink_it_ s w f).s.wf ∧
    (sink_it_ s w f).s.base_filename_ = s.base_filename_ ∧
    (sink_it_ s w f).s.max_files_ = s.max_files_ ∧
    (sink_it_ s w f).s.max_size_ = s.max_size_ := by
  obtain ⟨fh, cs, hs, hfn⟩ := sink_it_static s w f
  rw [hs]
  refine ⟨?_, rfl, rfl, rfl⟩
  obtain ⟨h1, h2, h3, h4, h5⟩ := hwf
  exact ⟨h1, hfn.trans h2, h3, h4, h5⟩

theorem flush_slot {s : sink} (hwf : s.wf) (w : World) {j : Nat} (hj : 1 ≤ j) :
    slot (s.file_helper_.flush w).2 s.base_filename_ j = slot w s.base_filename_ j := by
  have hne : calc_filename s.base_filename_ j ≠ s.file_helper_.filename_ := by
    rw [hwf.2.1]
    intro e
    have := calc_filename_injective s.base_filename_ (e.trans (calc_filename_zero _).symm)
    omega
  simp [slot, file_helper.flush, hne]

/-- A write that does not rotate leaves the rotated slots as they were. -/
theorem sink_it_slot_of_not_rotate {s : sink} (hwf : s.wf) (w : World) (f : memory_buf_t)
    (h : will_rotate s w f = false) {j : Nat} (hj : 1 ≤ j) :
    slot (sink_it_ s w f).w s.base_filename_ j = slot w s.base_filename_ j := by
  have h' : ¬ ((s.current_size_ + f.length) % SIZE_MOD > s.max_size_ ∧ real_size s w > 0) := by
    rw [← will_rotate_iff, h]; decide
  by_cases h1 : (s.current_size_ + f.length) % SIZE_MOD > s.max_size_
  · have h2 : ¬ real_size s w > 0 := fun h2 => h' ⟨h1, h2⟩
    rw [sink_it_flushed h1 h2]
    exact flush_slot hwf w hj
  · rw [sink_it_plain h1]

theorem active_of_real_size {s : sink} {w : World} (h : real_size s w > 0) :
    ∃ c, active_content s w = some c ∧ c.length = real_size s w := by
  unfold real_size file_helper.size file_helper.flush at h
  unfold active_content real_size file_helper.size file_helper.flush
  cases hf : w.files s.file_helper_.filename_ with
  | none => simp [hf] at h
  | some c => exact ⟨c ++ s.file_helper_.pending, by simp, by simp [hf]⟩

/-- A rotation without a twice-failed rename puts the content of the active file at the head
of the history that the chain holds. -/
theorem chain_after_rotate {s : sink} {w : World} {H : List memory_buf_t} {c : memory_buf_t}
    (hwf : s.wf) (hok : (rotate_ s w).threw = false)
    (hchain : chain_holds w s.base_filename_ s.max_files_ H)
    (hact : active_content s w = some c) :
    chain_holds (rotate_ s w).w s.base_filename_ s.max_files_ (c :: H) := by
  obtain ⟨-, -, -, hmid, htop, habove⟩ := rotate_chain s w hwf hok
  intro j hj
  rcases Nat.lt_or_ge s.max_files_ j with hgt | hle
  · rw [habove j hgt, hchain j hj]
    simp [show ¬ j ≤ s.max_files_ by omega]
  · rw [if_pos hle]
    have hsb : ∀ i, i < s.max_files_ → slot_before s w i = (c :: H)[i]? := by
      intro i hi
      rcases Nat.eq_zero_or_pos i with h0 | h0
      · subst h0; simp [slot_before, hact]
      · have := hchain i h0
        rw [if_pos (by omega)] at this
        obtain ⟨i', rfl⟩ : ∃ i', i = i' + 1 := ⟨i - 1, by omega⟩
        have hi0 : i' + 1 ≠ 0 := by omega
        simp [slot_before, hi0, this]
    rcases Nat.lt_or_ge j s.max_files_ with hlt | hge
    · rw [hmid j hj hlt, hsb (j - 1) (by omega)]
    · have hjm : j = s.max_files_ := by omega
      rw [hjm] at hj ⊢
      rw [htop hj, hsb (s.max_files_ - 1) (by omega)]
      cases hprev : (c :: H)[s.max_files_ - 1]? with
      | some x => simp
      | none =>
        simp only [Option.isSome_none, Bool.false_eq_true, if_false]
        rw [hchain _ hj, if_pos (Nat.le_refl _)]
        have hlen : (c :: H).length ≤ s.max_files_ - 1 := List.getElem?_eq_none_iff.mp hprev
        apply List.getElem?_eq_none_iff.mpr
        simp at hlen
        omega

/-- One write keeps the chain in step with the history: a rotating write adds the flushed
content of the active file at its head, any other write changes nothing. -/
theorem sink_it_chain {s : sink} {w : World} {H : List memory_buf_t} (f : memory_buf_t)
    (hwf : s.wf) (hok : (sink_it_ s w f).threw = false)
    (hchain : chain_holds w s.base_filename_ s.max_files_ H) :
    chain_holds (sink_it_ s w f).w s.base_filename_ s.max_files_
      ((if will_rotate s w f then [(active_content s w).getD []] else []) ++ H) := by
  cases hr : will_rotate s w f with
  | false =>
    intro j hj
    rw [sink_it_slot_of_not_rotate hwf w f hr hj]
    exact hchain j hj
  | true =>
    obtain ⟨h1, h2⟩ := (will_rotate_iff s w f).mp hr
    obtain ⟨c, hc, -⟩ := active_of_real_size h2
    obtain ⟨hrot, -, -, hslots⟩ := sink_it_rotated_result hwf h1 h2 hok
    have hchain1 : chain_holds (s.file_helper_.flush w).2 (flushed_sink s w).base_filename_
        (flushed_sink s w).max_files_ H := by
      intro j hj
      show slot (s.file_helper_.flush w).2 s.base_filename_ j = _
      rw [flush_slot hwf w hj]
      exact hchain j hj
    have hact1 : active_content (flushed_sink s w) (s.file_helper_.flush w).2 = some c := by
      rw [active_content_flush, hc]
    have := chain_after_rotate (flushed_sink_wf hwf w) hrot hchain1 hact1
    intro j hj
    rw [hslots j]
    simpa [hc] using this j hj

theorem write_all_chain :
    ∀ (records : List memory_buf_t) (s : sink) (w : World) (H : List memory_buf_t),
      s.wf → chain_holds w s.base_filename_ s.max_files_ H →
      (write_all s w records).threw = false →
      chain_holds (write_all s w records).w s.base_filename_ s.max_files_
        (rotated_contents s w records ++ H) ∧
      rotations (write_all s w records).w = rotations w + (rotated_contents s w records).length := by
  intro records
  induction records with
  | nil =>
    intro s w H _ hchain _
    exact ⟨by simpa [write_all, rotated_contents] using hchain, rfl⟩
  | cons r rs ih =>
    intro s w H hwf hchain hok
    have hthrew : (sink_it_ s w r).threw = false := by
      by_contra hne
      have ht : (sink_it_ s w r).threw = true := by simpa using hne
      simp only [write_all, ht, if_true] at hok
      exact absurd hok (by decide)
    have hw : write_all s w (r :: rs) = write_all (sink_it_ s w r).s (sink_it_ s w r).w rs := by
      simp [write_all, hthrew]
    have hh : rotated_contents s w (r :: rs) =
        rotated_contents (sink_it_ s w r).s (sink_it_ s w r).w rs ++
          (if will_rotate s w r then [(active_content s w).getD []] else []) := by
      simp [rotated_contents, hthrew]
    obtain ⟨hwf', hb, hm, -⟩ := sink_it_wf hwf w r
    have hstep := sink_it_chain r hwf hthrew hchain
    rw [← hb, ← hm] at hstep
    rw [hw] at hok ⊢
    obtain ⟨hc, hn⟩ := ih _ _ _ hwf' hstep hok
    rw [hb, hm] at hc
    refine ⟨?_, ?_⟩
    · rw [hh, List.append_assoc]
      exact hc
    · rw [hn, hh, List.length_append]
      have : rotations (sink_it_ s w r).w =
          rotations w + (if will_rotate s w r then [(active_content s w).getD []] else []).length := by
        cases hr : will_rotate s w r with
        | false =>
          have h' : ¬ ((s.current_size_ + r.length) % SIZE_MOD > s.max_size_ ∧
              real_size s w > 0) := by
            rw [← will_rotate_iff, hr]; decide
          by_cases h1 : (s.current_size_ + r.length) % SIZE_MOD > s.max_size_
          · have h2 : ¬ real_size s w > 0 := fun h2 => h' ⟨h1, h2⟩
            rw [sink_it_flushed h1 h2]
            rfl
          · rw [sink_it_plain h1]
            rfl
        | true =>
          obtain ⟨h1, h2⟩ := (will_rotate_iff s w r).mp hr
          rw [sink_it_rotated h1 h2]
          split
          · rw [rotate_rotations, flush_rotations]; rfl
          · show rotations (compressW_ _ _).w = _
            rw [compress_rotations, rotate_rotations, flush_rotations]; rfl
      rw [this]
      omega

/-! ## The scenario of the spec -/

theorem scenario_wf : scenario_sink.wf := by
  unfold sink.wf
  decide

theorem scenario_written_wf : scenario_written.s.wf :=
  (sink_it_wf scenario_wf _ _).1

theorem scenario_no_rotated :
    ∀ j, 1 ≤ j → slot scenario_world scenario_sink.base_filename_ j = none := by
  intro j hj
  have hne : calc_filename "base".toList j ≠ "base".toList := by
    intro e
    have := calc_filename_injective "base".toList (e.trans (calc_filename_zero _).symm)
    omega
  simp only [slot, scenario_world, scenario_sink, file_helper.open_, World.empty]
  rw [if_neg hne]

/-- C3: on a sink whose base has no rotated file, after any sequence of writes in which no
rename failed twice, with `n` the number of rotations that took place: the rotated files
present are exactly the indices `1..min(n, max_files)`, and slot `j` holds the content that the
active file had just before the `(n-j+1)`-th rotation (the `j`-th entry of the history, latest
first); older content is gone.  Scenarios with `max_size = 100`, `max_files = 2`: writes of 60
then 60 bytes leave the second record in `base`, the first in `base.1` and no `base.2`; a
fourth write (third rotation) leaves `base.1` and `base.2` with the third and second records,
the first being discarded. -/
theorem rotated_files_history (s : sink) (w : World) (records : List memory_buf_t)
    (hwf : s.wf) (hnone : ∀ j, 1 ≤ j → slot w s.base_filename_ j = none)
    (hok : (write_all s w records).threw = false) :
    rotations (write_all s w records).w = rotations w + (rotated_contents s w records).length ∧
    (∀ j, 1 ≤ j → ((slot (write_all s w records).w s.base_filename_ j).isSome ↔
      j ≤ min (rotated_contents s w records).length s.max_files_)) ∧
    (∀ j, 1 ≤ j → j ≤ min (rotated_contents s w records).length s.max_files_ →
      slot (write_all s w records).w s.base_filename_ j =
        (rotated_contents s w records)[j - 1]?) ∧
    (constructed (construct "base".toList 100 2 1 false World.empty)).map
      (fun p =>
        ((write_all p.1 p.2 [record_of 60 'a', record_of 60 'b']).threw,
         active_content (write_all p.1 p.2 [record_of 60 'a', record_of 60 'b']).s
           (write_all p.1 p.2 [record_of 60 'a', record_of 60 'b']).w,
         slot (write_all p.1 p.2 [record_of 60 'a', record_of 60 'b']).w "base".toList 1,
         slot (write_all p.1 p.2 [record_of 60 'a', record_of 60 'b']).w "base".toList 2))
      = some (false, some (record_of 60 'b'), some (record_of 60 'a'), none) ∧
    (constructed (construct "base".toList 100 2 1 false World.empty)).map
      (fun p =>
        ((write_all p.1 p.2
            [record_of 60 'a', record_of 60 'b', record_of 60 'c', record_of 60 'd']).threw,
         rotations (write_all p.1 p.2
            [record_of 60 'a', record_of 60 'b', record_of 60 'c', record_of 60 'd']).w,
         slot (write_all p.1 p.2
            [record_of 60 'a', record_of 60 'b', record_of 60 'c', record_of 60 'd']).w
            "base".toList 1,
         slot (write_all p.1 p.2
            [record_of 60 'a', record_of 60 'b', record_of 60 'c', record_of 60 'd']).w
            "base".toList 2,
         slot (write_all p.1 p.2
            [record_of 60 'a', record_of 60 'b', record_of 60 'c', record_of 60 'd']).w
            "base".toList 3))
      = some (false, 3, some (record_of 60 'c'), some (record_of 60 'b'), none) := by
  have hchain0 : chain_holds w s.base_filename_ s.max_files_ [] := by
    intro j hj
    rw [hnone j hj]
    simp
  obtain ⟨hchain, hrot⟩ := write_all_chain records s w [] hwf hchain0 hok
  rw [List.append_nil] at hchain
  refine ⟨hrot, ?_, ?_, by decide, by rfl⟩
  · intro j hj
    rw [hchain j hj]
    by_cases hle : j ≤ s.max_files_
    · rw [if_pos hle]
      constructor
      · intro h
        obtain ⟨x, hx⟩ := Option.isSome_iff_exists.mp h
        have := (List.getElem?_eq_some_iff.mp hx).1
        exact Nat.le_min.mpr ⟨by omega, hle⟩
      · intro h
        have hlt : j - 1 < (rotated_contents s w records).length := by
          have := (Nat.le_min.mp h).1
          omega
        rw [List.getElem?_eq_getElem hlt]
        rfl
    · rw [if_neg hle]
      constructor
      · intro h; exact absurd h (by simp)
      · intro h; exact absurd (Nat.le_min.mp h).2 hle
  · intro j hj hle
    rw [hchain j hj, if_pos (Nat.le_min.mp hle).2]

theorem sink_it_rotates_iff_witness :
    scenario_written.s.wf ∧
    scenario_written.s.current_size_ + (record_of 60 'b').length < SIZE_MOD ∧
    (rotations (sink_it_ scenario_written.s scenario_written.w (record_of 60 'b')).w =
        rotations scenario_written.w + 1 ↔
      (scenario_written.s.current_size_ + (record_of 60 'b').length >
          scenario_written.s.max_size_ ∧
        real_size scenario_written.s scenario_written.w > 0)) :=
  ⟨scenario_written_wf, by decide,
    (sink_it_rotates_iff scenario_written.s scenario_written.w (record_of 60 'b')
      scenario_written_wf (by decide)).1⟩

theorem rotate_shifts_chain_witness :
    scenario_written.s.wf ∧
    (rotate_ scenario_written.s scenario_written.w).threw = false ∧
    slot (rotate_ scenario_written.s scenario_written.w).w
      scenario_written.s.base_filename_ 0 = some [] :=
  ⟨scenario_written_wf, by rfl,
    (rotate_shifts_chain scenario_written.s scenario_written.w scenario_written_wf (by rfl)).1⟩

theorem rotated_files_history_witness :
    scenario_sink.wf ∧
    (∀ j, 1 ≤ j → slot scenario_world scenario_sink.base_filename_ j = none) ∧
    (write_all scenario_sink scenario_world [record_of 60 'a', record_of 60 'b']).threw = false ∧
    rotations (write_all scenario_sink scenario_world [record_of 60 'a', record_of 60 'b']).w =
      rotations scenario_world +
        (rotated_contents scenario_sink scenario_world
          [record_of 60 'a', record_of 60 'b']).length :=
  ⟨scenario_wf, scenario_no_rotated, by rfl,
    (rotated_files_history scenario_sink scenario_world [record_of 60 'a', record_of 60 'b']
      scenario_wf scenario_no_rotated (by rfl)).1⟩

/-! ## Constructed sinks and the size counter -/

theorem real_size_eq (s : sink) (w : World) :
    real_size s w = ((active_content s w).getD []).length := by
  unfold real_size active_content file_helper.size file_helper.flush
  cases hf : w.files s.file_helper_.filename_ <;> simp [hf]

theorem initial_sink_wf {b : filename_t} (hb : b ≠ []) (ms mf mc : Nat) (w : World) :
    (initial_sink b ms mf mc w).wf :=
  ⟨hb, by simp [initial_sink, file_helper.open_, calc_filename_zero], rfl, rfl, rfl⟩

theorem initial_sink_tracked (b : filename_t) (ms mf mc : Nat) (w : World) :
    size_tracked (initial_sink b ms mf mc w)
      (file_helper.open_ (calc_filename b 0) false w).2 := by
  refine ⟨(w.files b).getD [], ?_, ?_⟩
  · simp [active_content, initial_sink, file_helper.open_, calc_filename_zero]
  · simp [initial_sink, file_helper.open_, file_helper.size, calc_filename_zero]

theorem construct_unfold {b : filename_t} {ms mf mc : Nat} (roo : Bool) (w : World)
    (h0 : ms ≠ 0) (h1 : ¬ mf > 200000) :
    construct b ms mf mc roo w =
      if (roo && decide ((initial_sink b ms mf mc w).current_size_ > 0)) = true then
        if (rotate_ (initial_sink b ms mf mc w)
            (file_helper.open_ (calc_filename b 0) false w).2).threw = true then
          (Except.error "rotating_file_sink: failed renaming",
            (rotate_ (initial_sink b ms mf mc w)
              (file_helper.open_ (calc_filename b 0) false w).2).w)
        else
          (Except.ok { (rotate_ (initial_sink b ms mf mc w)
              (file_helper.open_ (calc_filename b 0) false w).2).s with current_size_ := 0 },
            (compressW_ (rotate_ (initial_sink b ms mf mc w)
                (file_helper.open_ (calc_filename b 0) false w).2).s
              (rotate_ (initial_sink b ms mf mc w)
                (file_helper.open_ (calc_filename b 0) false w).2).w).w)
      else
        (Except.ok (initial_sink b ms mf mc w),
          (file_helper.open_ (calc_filename b 0) false w).2) := by
  unfold construct
  simp only [h0, h1, if_false]
  rfl

/-- A sink that the constructor returns is well formed, carries the bounds it was given, which
the constructor has checked, and its size counter is the size of the active file. -/
theorem construct_ok {b : filename_t} {ms mf mc : Nat} {roo : Bool} {w0 : World} {s : sink}
    {w : World} (h : constructed (construct b ms mf mc roo w0) = some (s, w)) (hb : b ≠ []) :
    s.wf ∧ s.base_filename_ = b ∧ s.max_size_ = ms ∧ s.max_files_ = mf ∧ 1 ≤ ms ∧
      mf ≤ 200000 ∧ size_tracked s w ∧
      s.current_size_ ≤ ((w0.files b).getD []).length := by
  by_cases h0 : ms = 0
  · simp [construct, h0, constructed] at h
  by_cases h1 : mf > 200000
  · simp [construct, h0, h1, constructed] at h
  rw [construct_unfold roo w0 h0 h1] at h
  have htr0 := initial_sink_tracked b ms mf mc w0
  generalize (file_helper.open_ (calc_filename b 0) false w0).2 = W at h htr0
  have hwf0 := initial_sink_wf hb ms mf mc w0
  have hsz0 : (initial_sink b ms mf mc w0).current_size_ = ((w0.files b).getD []).length := by
    simp [initial_sink, file_helper.open_, file_helper.size, calc_filename_zero]
  split at h
  · split at h
    · simp [constructed] at h
    · rename_i hthrew
      have hok : (rotate_ (initial_sink b ms mf mc w0)
          W).threw = false := by
        simpa using hthrew
      simp only [constructed, Option.some.injEq, Prod.mk.injEq] at h
      obtain ⟨hs, hw⟩ := h
      have hwf1 := rotate_wf hwf0 hok
      obtain ⟨hb1, hfn1, hms1, hmf1, -⟩ := rotate_fields hok
      obtain ⟨hslot0, hpend, -, -, -, -⟩ := rotate_chain _ _ hwf0 hok
      have hbase : (initial_sink b ms mf mc w0).base_filename_ = b := rfl
      have hfile := compress_slot _ (rotate_ (initial_sink b ms mf mc w0) W).w hwf1 0
      rw [hb1, hslot0, hbase] at hfile
      unfold slot at hfile
      rw [calc_filename_zero] at hfile
      subst hs hw
      refine ⟨hwf1, hb1, hms1, hmf1, by omega, by omega, ⟨[], ?_, rfl⟩, Nat.zero_le _⟩
      have hfn : (rotate_ (initial_sink b ms mf mc w0) W).s.file_helper_.filename_ = b := by
        rw [hfn1]; exact hwf0.2.1
      simp [active_content, hfn, hfile, hpend]
  · simp only [constructed, Option.some.injEq, Prod.mk.injEq] at h
    obtain ⟨hs, hw⟩ := h
    subst hs hw
    exact ⟨hwf0, rfl, rfl, rfl, by omega, by omega, htr0,
      Nat.le_of_eq hsz0⟩

/-- One write that does not throw keeps the size counter equal to the size of the active
file, which then is within `max_size` unless the file holds exactly the record. -/
theorem sink_it_tracked {s : sink} {w : World} {f : memory_buf_t} (hwf : s.wf)
    (htr : size_tracked s w) (hfit : s.current_size_ + f.length < SIZE_MOD)
    (hok : (sink_it_ s w f).threw = false) :
    ∃ c, active_content (sink_it_ s w f).s (sink_it_ s w f).w = some c ∧
      (sink_it_ s w f).s.current_size_ = c.length ∧
      c.length ≤ s.current_size_ + f.length ∧
      (c.length ≤ s.max_size_ ∨ c = f) := by
  obtain ⟨c0, hc0, hsz⟩ := htr
  have hmod : (s.current_size_ + f.length) % SIZE_MOD = s.current_size_ + f.length :=
    Nat.mod_eq_of_lt hfit
  have hreal : real_size s w = c0.length := by rw [real_size_eq, hc0]; rfl
  have hfile : ∃ d, w.files s.file_helper_.filename_ = some d ∧
      c0 = d ++ s.file_helper_.pending := by
    unfold active_content at hc0
    cases hf : w.files s.file_helper_.filename_ with
    | none => simp [hf] at hc0
    | some d => exact ⟨d, rfl, by simpa [hf] using hc0.symm⟩
  obtain ⟨d, hd, hc0d⟩ := hfile
  by_cases h1 : (s.current_size_ + f.length) % SIZE_MOD > s.max_size_
  · by_cases h2 : real_size s w > 0
    · obtain ⟨-, hcs, hact, -⟩ := sink_it_rotated_result hwf h1 h2 hok
      exact ⟨f, hact, hcs, by omega, Or.inr rfl⟩
    · have hzero : c0 = [] := by
        have : c0.length = 0 := by omega
        exact List.length_eq_zero.mp this
      rw [sink_it_flushed h1 h2]
      refine ⟨f, ?_, ?_, by omega, Or.inr rfl⟩
      · rw [hzero] at hc0d
        have hd0 : d = [] ∧ s.file_helper_.pending = [] := by
          simpa using hc0d.symm
        simp [active_content, file_helper.write, file_helper.flush, hd, hd0.1, hd0.2]
      · show (s.current_size_ + f.length) % SIZE_MOD = f.length
        rw [hmod, hsz, hzero]
        simp
  · rw [sink_it_plain h1]
    refine ⟨c0 ++ f, ?_, ?_, ?_, Or.inl ?_⟩
    · simp [active_content, file_helper.write, hd, hc0d]
    · show (s.current_size_ + f.length) % SIZE_MOD = (c0 ++ f).length
      rw [hmod, hsz]; simp
    · simp [hsz]
    · rw [hmod] at h1
      simp only [List.length_append]
      omega

theorem write_all_cons_ok {s : sink} {w : World} {r : memory_buf_t} {rs : List memory_buf_t}
    (hok : (write_all s w (r :: rs)).threw = false) :
    (sink_it_ s w r).threw = false ∧
      write_all s w (r :: rs) = write_all (sink_it_ s w r).s (sink_it_ s w r).w rs := by
  have hthrew : (sink_it_ s w r).threw = false := by
    by_contra hne
    have ht : (sink_it_ s w r).threw = true := by simpa using hne
    simp only [write_all, ht, if_true] at hok
    exact absurd hok (by decide)
  exact ⟨hthrew, by simp [write_all, hthrew]⟩

/-- A sequence of writes that does not throw keeps the sink well formed, its bounds, and the
size counter equal to the size of the active file. -/
theorem write_all_tracked :
    ∀ (records : List memory_buf_t) (s : sink) (w : World),
      s.wf → size_tracked s w →
      s.current_size_ + (records.map List.length).sum < SIZE_MOD →
      (write_all s w records).threw = false →
      (write_all s w records).s.wf ∧
      (write_all s w records).s.base_filename_ = s.base_filename_ ∧
      (write_all s w records).s.max_size_ = s.max_size_ ∧
      (write_all s w records).s.max_files_ = s.max_files_ ∧
      size_tracked (write_all s w records).s (write_all s w records).w ∧
      (write_all s w records).s.current_size_ ≤
        s.current_size_ + (records.map List.length).sum := by
  intro records
  induction records with
  | nil =>
    intro s w hwf htr _ _
    exact ⟨hwf, rfl, rfl, rfl, htr, by simp [write_all]⟩
  | cons r rs ih =>
    intro s w hwf htr hfit hok
    simp only [List.map_cons, List.sum_cons] at hfit ⊢
    obtain ⟨hthrew, hw⟩ := write_all_cons_ok hok
    obtain ⟨hwf', hb, hm, hms⟩ := sink_it_wf hwf w r
    obtain ⟨c, hc, hcs, hle, -⟩ := sink_it_tracked hwf htr (by omega) hthrew
    rw [hw] at hok ⊢
    obtain ⟨i1, i2, i3, i4, i5, i6⟩ := ih _ _ hwf' ⟨c, hc, hcs⟩ (by omega) hok
    exact ⟨i1, i2.trans hb, i3.trans hms, i4.trans hm, i5, by omega⟩

/-! ## The size bound of the active file -/

theorem sink_it_rotations (s : sink) (w : World) (f : memory_buf_t) :
    rotations (sink_it_ s w f).w = rotations w + (if will_rotate s w f then 1 else 0) := by
  cases hr : will_rotate s w f with
  | false =>
    have h' : ¬ ((s.current_size_ + f.length) % SIZE_MOD > s.max_size_ ∧ real_size s w > 0) := by
      rw [← will_rotate_iff, hr]; decide
    by_cases h1 : (s.current_size_ + f.length) % SIZE_MOD > s.max_size_
    · have h2 : ¬ real_size s w > 0 := fun h2 => h' ⟨h1, h2⟩
      rw [sink_it_flushed h1 h2]
      rfl
    · rw [sink_it_plain h1]
      rfl
  | true =>
    obtain ⟨h1, h2⟩ := (will_rotate_iff s w f).mp hr
    rw [sink_it_rotated h1 h2]
    split
    · rw [rotate_rotations, flush_rotations]; rfl
    · show rotations (compressW_ _ _).w = _
      rw [compress_rotations, rotate_rotations, flush_rotations]; rfl

/-- A rotation that does not throw, with at least one rotated slot allowed, leaves the former
content of the active file in slot 1. -/
theorem rotate_slot_one {s : sink} {w : World} {c : memory_buf_t} (hwf : s.wf)
    (hok : (rotate_ s w).threw = false) (hmf : 1 ≤ s.max_files_)
    (hact : active_content s w = some c) :
    slot (rotate_ s w).w s.base_filename_ 1 = some c := by
  obtain ⟨-, -, -, hmid, htop, -⟩ := rotate_chain s w hwf hok
  rcases Nat.lt_or_ge 1 s.max_files_ with hlt | hge
  · rw [hmid 1 (Nat.le_refl 1) hlt]
    simp [slot_before, hact]
  · have h1 : s.max_files_ = 1 := by omega
    have h := htop hmf
    rw [h1] at h
    rw [h]
    simp [slot_before, hact]

/-- C4: on a constructed sink, after any sequence of writes in which no rename failed twice,
whenever the measured size of the active file exceeds `max_size`, the next write rotates
before it appends: the rotation count grows by one, the over-sized content is found in slot 1
(when `max_files >= 1`), `active_size` equals exactly the length of the record and the active
file holds exactly the record.  Sizes are assumed to fit `std::size_t`. -/
theorem next_write_rotates (b : filename_t) (ms mf mc : Nat) (roo : Bool) (w0 : World)
    (s : sink) (w : World) (records : List memory_buf_t) (r : memory_buf_t)
    (hctor : constructed (construct b ms mf mc roo w0) = some (s, w)) (hb : b ≠ [])
    (hfit : s.current_size_ + (records.map List.length).sum + r.length < SIZE_MOD)
    (hok : (write_all s w records).threw = false)
    (hbig : real_size (write_all s w records).s (write_all s w records).w > ms)
    (hnext : (sink_it_ (write_all s w records).s (write_all s w records).w r).threw = false) :
    rotations (sink_it_ (write_all s w records).s (write_all s w records).w r).w =
      rotations (write_all s w records).w + 1 ∧
    (sink_it_ (write_all s w records).s (write_all s w records).w r).s.current_size_ =
      r.length ∧
    active_content (sink_it_ (write_all s w records).s (write_all s w records).w r).s
      (sink_it_ (write_all s w records).s (write_all s w records).w r).w = some r ∧
    (1 ≤ mf → slot (sink_it_ (write_all s w records).s (write_all s w records).w r).w b 1 =
      active_content (write_all s w records).s (write_all s w records).w) := by
  obtain ⟨hwf, hbase, hms, hmf, -, -, htr, -⟩ := construct_ok hctor hb
  obtain ⟨hwf', hb', hms', hmf', ⟨c, hc, hcs⟩, hle⟩ :=
    write_all_tracked records s w hwf htr (by omega) hok
  generalize write_all s w records = o at *
  have hreal : real_size o.s o.w = c.length := by rw [real_size_eq, hc]; rfl
  have hmod : (o.s.current_size_ + r.length) % SIZE_MOD = o.s.current_size_ + r.length :=
    Nat.mod_eq_of_lt (by omega)
  have h1 : (o.s.current_size_ + r.length) % SIZE_MOD > o.s.max_size_ := by
    rw [hmod, hms', hms]; omega
  have h2 : real_size o.s o.w > 0 := by omega
  obtain ⟨hrot, hsz, hact, hslots⟩ := sink_it_rotated_result hwf' h1 h2 hnext
  refine ⟨?_, hsz, hact, ?_⟩
  · rw [sink_it_rotations, (will_rotate_iff _ _ _).mpr ⟨h1, h2⟩]
    rfl
  · intro h1mf
    have hb2 : o.s.base_filename_ = b := hb'.trans hbase
    have := hslots 1
    rw [hb2] at this
    rw [this, hc]
    have hone := rotate_slot_one (flushed_sink_wf hwf' o.w) hrot
      (show 1 ≤ (flushed_sink o.s o.w).max_files_ by
        show 1 ≤ o.s.max_files_
        rw [hmf', hmf]; exact h1mf)
      (show active_content (flushed_sink o.s o.w) (o.s.file_helper_.flush o.w).2 = some c by
        rw [active_content_flush, hc])
    rw [← hb2]
    exact hone

theorem write_all_snoc_ok :
    ∀ (xs : List memory_buf_t) (s : sink) (w : World) (r : memory_buf_t),
      (write_all s w (xs ++ [r])).threw = false →
      (write_all s w xs).threw = false ∧
      (sink_it_ (write_all s w xs).s (write_all s w xs).w r).threw = false ∧
      (write_all s w (xs ++ [r])).s = (sink_it_ (write_all s w xs).s (write_all s w xs).w r).s ∧
      (write_all s w (xs ++ [r])).w =
        (sink_it_ (write_all s w xs).s (write_all s w xs).w r).w := by
  intro xs
  induction xs with
  | nil =>
    intro s w r hok
    obtain ⟨h1, h2⟩ := write_all_cons_ok (show (write_all s w (r :: [])).threw = false from hok)
    refine ⟨rfl, h1, ?_, ?_⟩
    · show (write_all s w (r :: [])).s = _
      rw [h2]; rfl
    · show (write_all s w (r :: [])).w = _
      rw [h2]; rfl
  | cons x xs ih =>
    intro s w r hok
    obtain ⟨h1, h2⟩ :=
      write_all_cons_ok (show (write_all s w (x :: (xs ++ [r]))).threw = false from hok)
    have hx : write_all s w (x :: xs) = write_all (sink_it_ s w x).s (sink_it_ s w x).w xs := by
      simp [write_all, h1]
    rw [List.cons_append, h2] at hok ⊢
    rw [hx]
    exact ih _ _ r hok

/-- C5: on a constructed sink, whatever file the constructor found, after every write of any
sequence of writes in which no rename failed twice, the measured size of the active file is
at most `max_size` unless the file holds exactly the record just written; hence it exceeds
`max_size` by less than one record.  Sizes are assumed to fit `std::size_t`. -/
theorem active_size_bounded (b : filename_t) (ms mf mc : Nat) (roo : Bool) (w0 : World)
    (s : sink) (w : World) (records : List memory_buf_t) (r : memory_buf_t)
    (hctor : constructed (construct b ms mf mc roo w0) = some (s, w)) (hb : b ≠ [])
    (hfit : s.current_size_ + (records.map List.length).sum + r.length < SIZE_MOD)
    (hok : (write_all s w (records ++ [r])).threw = false) :
    (real_size (write_all s w (records ++ [r])).s (write_all s w (records ++ [r])).w ≤ ms ∨
      active_content (write_all s w (records ++ [r])).s (write_all s w (records ++ [r])).w =
        some r) ∧
    real_size (write_all s w (records ++ [r])).s (write_all s w (records ++ [r])).w ≤
      ms + r.length := by
  obtain ⟨hwf, hbase, hms, hmf, -, -, htr, -⟩ := construct_ok hctor hb
  obtain ⟨hok1, hok2, hs, hw⟩ := write_all_snoc_ok records s w r hok
  obtain ⟨hwf', -, hms', -, htr', hle⟩ :=
    write_all_tracked records s w hwf htr (by omega) hok1
  rw [hs, hw]
  generalize write_all s w records = o at *
  obtain ⟨c, hc, -, hlen, hbound⟩ := sink_it_tracked hwf' htr' (by omega) hok2
  have hreal : real_size (sink_it_ o.s o.w r).s (sink_it_ o.s o.w r).w = c.length := by
    rw [real_size_eq, hc]; rfl
  rw [hreal, hc]
  rw [hms', hms] at hbound
  constructor
  · rcases hbound with h | h
    · exact Or.inl h
    · exact Or.inr (by rw [h])
  · rcases hbound with h | h
    · omega
    · rw [h]; omega

theorem scenario_constructed :
    constructed (construct "base".toList 100 2 1 false World.empty) =
      some (scenario_sink, scenario_world) := by
  rfl

theorem next_write_rotates_witness :
    constructed (construct "base".toList 100 2 1 false World.empty) =
      some (scenario_sink, scenario_world) ∧
    "base".toList ≠ [] ∧
    scenario_sink.current_size_ + ([record_of 120 'a'].map List.length).sum +
      (record_of 60 'b').length < SIZE_MOD ∧
    (write_all scenario_sink scenario_world [record_of 120 'a']).threw = false ∧
    real_size (write_all scenario_sink scenario_world [record_of 120 'a']).s
      (write_all scenario_sink scenario_world [record_of 120 'a']).w > 100 ∧
    (sink_it_ (write_all scenario_sink scenario_world [record_of 120 'a']).s
      (write_all scenario_sink scenario_world [record_of 120 'a']).w
      (record_of 60 'b')).threw = false ∧
    active_content
      (sink_it_ (write_all scenario_sink scenario_world [record_of 120 'a']).s
        (write_all scenario_sink scenario_world [record_of 120 'a']).w (record_of 60 'b')).s
      (sink_it_ (write_all scenario_sink scenario_world [record_of 120 'a']).s
        (write_all scenario_sink scenario_world [record_of 120 'a']).w (record_of 60 'b')).w
      = some (record_of 60 'b') :=
  ⟨scenario_constructed, by decide, by decide, by rfl, by decide, by rfl,
    (next_write_rotates "base".toList 100 2 1 false World.empty scenario_sink scenario_world
      [record_of 120 'a'] (record_of 60 'b') scenario_constructed (by decide) (by decide)
      (by rfl) (by decide) (by rfl)).2.2.1⟩

theorem active_size_bounded_witness :
    constructed (construct "base".toList 100 2 1 false World.empty) =
      some (scenario_sink, scenario_world) ∧
    "base".toList ≠ [] ∧
    scenario_sink.current_size_ + ([record_of 60 'a'].map List.length).sum +
      (record_of 60 'b').length < SIZE_MOD ∧
    (write_all scenario_sink scenario_world ([record_of 60 'a'] ++ [record_of 60 'b'])).threw
      = false ∧
    real_size
      (write_all scenario_sink scenario_world ([record_of 60 'a'] ++ [record_of 60 'b'])).s
      (write_all scenario_sink scenario_world ([record_of 60 'a'] ++ [record_of 60 'b'])).w ≤
      100 + (record_of 60 'b').length :=
  ⟨scenario_constructed, by decide, by decide, by rfl,
    (active_size_bounded "base".toList 100 2 1 false World.empty scenario_sink scenario_world
      [record_of 60 'a'] (record_of 60 'b') scenario_constructed (by decide) (by decide)
      (by rfl)).2⟩

/-! ## A rotation that fails -/

theorem rename_file_trace (w : World) (src tgt : filename_t) :
    (rename_file_ w src tgt).2.trace =
      Event.rename src tgt (rename_file_ w src tgt).1 :: w.trace := by
  unfold rename_file_ os.rename os.remove
  dsimp only
  split
  · rfl
  · split <;> rfl

theorem path_exists_congr {w w' : World} {p : filename_t} (hf : w'.files p = w.files p)
    (hd : w'.dirs p = w.dirs p) : os.path_exists w' p = os.path_exists w p := by
  unfold os.path_exists
  rw [hf, hd]

/-- When the loop of `rotate_` gives up, the two latest events are the two refused renames of
one slot, which still exists: nothing was attempted after them. -/
theorem rotate_loop_fail (b : filename_t) :
    ∀ (m : Nat) (w w' : World), rotate_loop b m w = (false, w') →
      ∃ i rest, 1 ≤ i ∧ i ≤ m ∧
        w'.trace = Event.rename (calc_filename b (i - 1)) (calc_filename b i) false ::
          Event.rename (calc_filename b (i - 1)) (calc_filename b i) false :: rest ∧
        os.path_exists w' (calc_filename b (i - 1)) = true := by
  intro m
  induction m with
  | zero =>
    intro w w' h
    simp [rotate_loop] at h
  | succ m ih =>
    intro w w' h
    have lift : (∃ i rest, 1 ≤ i ∧ i ≤ m ∧
        w'.trace = Event.rename (calc_filename b (i - 1)) (calc_filename b i) false ::
          Event.rename (calc_filename b (i - 1)) (calc_filename b i) false :: rest ∧
        os.path_exists w' (calc_filename b (i - 1)) = true) →
        ∃ i rest, 1 ≤ i ∧ i ≤ m + 1 ∧
        w'.trace = Event.rename (calc_filename b (i - 1)) (calc_filename b i) false ::
          Event.rename (calc_filename b (i - 1)) (calc_filename b i) false :: rest ∧
        os.path_exists w' (calc_filename b (i - 1)) = true := by
      rintro ⟨i, rest, h1, h2, h3, h4⟩
      exact ⟨i, rest, h1, by omega, h3, h4⟩
    have hne : calc_filename b m ≠ calc_filename b (m + 1) := by
      intro e
      have := calc_filename_injective b e
      omega
    simp only [rotate_loop] at h
    by_cases hex : os.path_exists w (calc_filename b m) = true
    · simp only [hex, Bool.not_true, Bool.false_eq_true, if_false] at h
      by_cases h1 : (rename_file_ w (calc_filename b m) (calc_filename b (m + 1))).1 = true
      · simp only [h1, if_true] at h
        exact lift (ih _ _ h)
      · have h1' : (rename_file_ w (calc_filename b m) (calc_filename b (m + 1))).1 = false := by
          simpa using h1
        simp only [h1', Bool.false_eq_true, if_false] at h
        by_cases h2 : (rename_file_ (rename_file_ w (calc_filename b m)
            (calc_filename b (m + 1))).2 (calc_filename b m) (calc_filename b (m + 1))).1 = true
        · simp only [h2, if_true] at h
          exact lift (ih _ _ h)
        · have h2' : (rename_file_ (rename_file_ w (calc_filename b m)
              (calc_filename b (m + 1))).2 (calc_filename b m) (calc_filename b (m + 1))).1
              = false := by simpa using h2
          simp only [h2', Bool.false_eq_true, if_false, Prod.mk.injEq, true_and] at h
          subst h
          refine ⟨m + 1, w.trace, by omega, Nat.le_refl _, ?_, ?_⟩
          · rw [rename_file_trace, rename_file_trace, h1', h2']
            rfl
          · rw [Nat.add_sub_cancel]
            rw [← hex]
            apply path_exists_congr
            · rw [rename_file_fail hne h2', rename_file_fail hne h1']
              simp [hne]
            · rw [rename_file_dirs, rename_file_dirs]
    · have hex' : os.path_exists w (calc_filename b m) = false := by simpa using hex
      simp only [hex', Bool.not_false, if_true] at h
      exact lift (ih _ _ h)

/-- When the loop of `rotate_` completes, its latest event, if it made any, is a rename that
succeeded. -/
theorem rotate_loop_ok_trace (b : filename_t) :
    ∀ (m : Nat) (w w' : World), rotate_loop b m w = (true, w') →
      w'.trace = w.trace ∨ ∃ src tgt rest, w'.trace = Event.rename src tgt true :: rest := by
  intro m
  induction m with
  | zero =>
    intro w w' h
    simp only [rotate_loop, Prod.mk.injEq, true_and] at h
    subst h
    exact Or.inl rfl
  | succ m ih =>
    intro w w' h
    simp only [rotate_loop] at h
    by_cases hex : os.path_exists w (calc_filename b m) = true
    · simp only [hex, Bool.not_true, Bool.false_eq_true, if_false] at h
      by_cases h1 : (rename_file_ w (calc_filename b m) (calc_filename b (m + 1))).1 = true
      · simp only [h1, if_true] at h
        rcases ih _ _ h with e | e
        · right
          exact ⟨_, _, _, by rw [e, rename_file_trace, h1]⟩
        · exact Or.inr e
      · simp only [h1, if_false] at h
        by_cases h2 : (rename_file_ (rename_file_ w (calc_filename b m)
            (calc_filename b (m + 1))).2 (calc_filename b m) (calc_filename b (m + 1))).1 = true
        · simp only [h2, if_true] at h
          rcases ih _ _ h with e | e
          · right
            exact ⟨_, _, _, by rw [e, rename_file_trace, h2]⟩
          · exact Or.inr e
        · simp [h2] at h
    · have hex' : os.path_exists w (calc_filename b m) = false := by simpa using hex
      simp only [hex', Bool.not_false, if_true] at h
      exact ih _ _ h

theorem rotate_world (s : sink) (w : World) :
    (rotate_ s w).w = ((s.file_helper_.close { w with trace := Event.rotate :: w.trace }).1.reopen
      true (rotate_loop s.base_filename_ s.max_files_
        (s.file_helper_.close { w with trace := Event.rotate :: w.trace }).2).2).2 := by
  unfold rotate_
  dsimp only
  split <;> rfl

theorem rotate_threw_eq (s : sink) (w : World) :
    (rotate_ s w).threw = !(rotate_loop s.base_filename_ s.max_files_
        (s.file_helper_.close { w with trace := Event.rotate :: w.trace }).2).1 := by
  unfold rotate_
  dsimp only
  split <;> simp_all

theorem reopen_trace (h : file_helper) (t : Bool) (w : World) : (h.reopen t w).2.trace = w.trace :=
  rfl

theorem reopen_files_self (h : file_helper) (w : World) :
    (h.reopen true w).2.files h.filename_ = some [] := by
  simp [file_helper.reopen, file_helper.open_, file_helper.close, file_helper.flush]

theorem reopen_path_exists (h : file_helper) (w : World) (p : filename_t)
    (hp : os.path_exists w p = true) : os.path_exists (h.reopen true w).2 p = true := by
  unfold os.path_exists at hp ⊢
  simp only [file_helper.reopen, file_helper.open_, file_helper.close, file_helper.flush]
  cases p with
  | nil => simp at hp
  | cons x xs =>
    simp only [List.isEmpty_cons, Bool.not_false, Bool.true_and, Bool.or_eq_true] at hp ⊢
    by_cases hq : x :: xs = h.filename_
    · left; simp [hq]
    · rcases hp with hp | hp
      · left; simpa [hq] using hp
      · right
        split
        · rfl
        · exact hp

/-- The active file after any `rotate_`, thrown or not: it exists and is empty. -/
theorem rotate_active (s : sink) (w : World) :
    (rotate_ s w).w.files s.file_helper_.filename_ = some [] ∧
    (rotate_ s w).s.file_helper_.filename_ = s.file_helper_.filename_ ∧
    (rotate_ s w).s.file_helper_.pending = [] := by
  refine ⟨?_, by rw [rotate_static], by rw [rotate_static]⟩
  rw [rotate_world]
  exact reopen_files_self _ _

/-- A write on a sink whose size counter is 0 and whose active file is empty with nothing
pending: it returns normally, without rotation or rename, and the file holds the record. -/
theorem sink_it_on_empty {s : sink} {w : World} (r : memory_buf_t)
    (hcs : s.current_size_ = 0) (hfile : w.files s.file_helper_.filename_ = some [])
    (hpend : s.file_helper_.pending = []) (hr : r.length < SIZE_MOD) :
    (sink_it_ s w r).threw = false ∧
    rotations (sink_it_ s w r).w = rotations w ∧
    renames (sink_it_ s w r).w = renames w ∧
    active_content (sink_it_ s w r).s (sink_it_ s w r).w = some r ∧
    (sink_it_ s w r).s.current_size_ = r.length := by
  have hmod : (s.current_size_ + r.length) % SIZE_MOD = r.length := by
    rw [hcs, Nat.zero_add]; exact Nat.mod_eq_of_lt hr
  have hreal : real_size s w = 0 := by
    rw [real_size_eq]
    simp [active_content, hfile, hpend]
  by_cases h1 : (s.current_size_ + r.length) % SIZE_MOD > s.max_size_
  · have h2 : ¬ real_size s w > 0 := by omega
    rw [sink_it_flushed h1 h2]
    refine ⟨rfl, rfl, rfl, ?_, hmod⟩
    simp [active_content, file_helper.write, file_helper.flush, hfile, hpend]
  · rw [sink_it_plain h1]
    refine ⟨rfl, rfl, rfl, ?_, hmod⟩
    simp [active_content, file_helper.write, hfile, hpend]

/-- C6: `rotate_` signals the rotation failure exactly when the rename of an existing slot was
refused on both attempts, and these two attempts are then its latest events: no further rename
is attempted.  It then leaves the active file existing and truncated to size 0, with
`active_size` 0, and a following write returns normally without rotation or rename: the active
file holds its record and `active_size` is the length of the record. -/
theorem rotation_failure_contained (s : sink) (w : World) (hwf : s.wf) :
    ((rotate_ s w).threw = true ↔
      ∃ i rest, 1 ≤ i ∧ i ≤ s.max_files_ ∧
        (rotate_ s w).w.trace =
          Event.rename (calc_filename s.base_filename_ (i - 1))
              (calc_filename s.base_filename_ i) false ::
            Event.rename (calc_filename s.base_filename_ (i - 1))
              (calc_filename s.base_filename_ i) false :: rest ∧
        os.path_exists (rotate_ s w).w (calc_filename s.base_filename_ (i - 1)) = true) ∧
    ((rotate_ s w).threw = true →
      slot (rotate_ s w).w s.base_filename_ 0 = some [] ∧
      active_content (rotate_ s w).s (rotate_ s w).w = some [] ∧
      real_size (rotate_ s w).s (rotate_ s w).w = 0 ∧
      (rotate_ s w).s.current_size_ = 0 ∧
      ∀ r : memory_buf_t, r.length < SIZE_MOD →
        (sink_it_ (rotate_ s w).s (rotate_ s w).w r).threw = false ∧
        rotations (sink_it_ (rotate_ s w).s (rotate_ s w).w r).w = rotations (rotate_ s w).w ∧
        renames (sink_it_ (rotate_ s w).s (rotate_ s w).w r).w = renames (rotate_ s w).w ∧
        active_content (sink_it_ (rotate_ s w).s (rotate_ s w).w r).s
          (sink_it_ (rotate_ s w).s (rotate_ s w).w r).w = some r ∧
        (sink_it_ (rotate_ s w).s (rotate_ s w).w r).s.current_size_ = r.length) := by
  obtain ⟨hfile, hfn, hpend⟩ := rotate_active s w
  constructor
  · constructor
    · intro hthrew
      rw [rotate_threw_eq] at hthrew
      have hloop : rotate_loop s.base_filename_ s.max_files_
          (s.file_helper_.close { w with trace := Event.rotate :: w.trace }).2 =
          (false, (rotate_loop s.base_filename_ s.max_files_
            (s.file_helper_.close { w with trace := Event.rotate :: w.trace }).2).2) := by
        have : (rotate_loop s.base_filename_ s.max_files_
          (s.file_helper_.close { w with trace := Event.rotate :: w.trace }).2).1 = false := by
          simpa using hthrew
        rw [← this]
      obtain ⟨i, rest, h1, h2, h3, h4⟩ := rotate_loop_fail _ _ _ _ hloop
      refine ⟨i, rest, h1, h2, ?_, ?_⟩
      · rw [rotate_world, reopen_trace]
        exact h3
      · rw [rotate_world]
        exact reopen_path_exists _ _ _ h4
    · rintro ⟨i, rest, -, -, htrace, -⟩
      by_contra hne
      have hok : (rotate_ s w).threw = false := by simpa using hne
      obtain ⟨w2, hloop, -, -, htr, -⟩ := rotate_unfold hok
      rw [htr] at htrace
      rcases rotate_loop_ok_trace _ _ _ _ hloop with e | ⟨src, tgt, rest2, e⟩
      · rw [e] at htrace
        simp [file_helper.close, file_helper.flush] at htrace
      · rw [e] at htrace
        simp at htrace
  · intro hthrew
    have hcs : (rotate_ s w).s.current_size_ = 0 := by
      rw [rotate_static, hthrew]
      rfl
    have hfile' : (rotate_ s w).w.files (rotate_ s w).s.file_helper_.filename_ = some [] := by
      rw [hfn]; exact hfile
    refine ⟨?_, ?_, ?_, hcs, fun r hr => sink_it_on_empty r hcs hfile' hpend hr⟩
    · show (rotate_ s w).w.files _ = _
      rw [calc_filename_zero, ← hwf.2.1]
      exact hfile
    · simp [active_content, hfile', hpend]
    · rw [real_size_eq]
      simp [active_content, hfile', hpend]

theorem rotation_failure_contained_witness :
    scenario_written.s.wf ∧
    (rotate_ scenario_written.s refusing_world).threw = true ∧
    slot (rotate_ scenario_written.s refusing_world).w scenario_written.s.base_filename_ 0 =
      some [] :=
  ⟨scenario_written_wf, by rfl,
    ((rotation_failure_contained scenario_written.s refusing_world scenario_written_wf).2
      (by rfl)).1⟩

/-! ## What a write leaves when the rotation fails -/

/-- C7, as stated, fails: on the scenario after its first write, with the next two renames
refused, the second write of 60 bytes throws out of `rotate_`, and the active file is left
empty: the record is not in it. -/
theorem record_lost_when_rotation_fails :
    scenario_written.s.wf ∧
    (scenario_written.w.files scenario_written.s.base_filename_).isSome = true ∧
    (sink_it_ scenario_written.s refusing_world (record_of 60 'b')).threw = true ∧
    active_content (sink_it_ scenario_written.s refusing_world (record_of 60 'b')).s
      (sink_it_ scenario_written.s refusing_world (record_of 60 'b')).w = some [] ∧
    ¬ ∃ t, active_content (sink_it_ scenario_written.s refusing_world (record_of 60 'b')).s
      (sink_it_ scenario_written.s refusing_world (record_of 60 'b')).w =
        some (t ++ record_of 60 'b') := by
  have h : active_content (sink_it_ scenario_written.s refusing_world (record_of 60 'b')).s
      (sink_it_ scenario_written.s refusing_world (record_of 60 'b')).w = some [] := by rfl
  refine ⟨scenario_written_wf, by rfl, by rfl, h, ?_⟩
  rintro ⟨t, ht⟩
  rw [h] at ht
  have := congrArg (fun o => (o.getD []).length) ht
  simp [record_of] at this

/-- C7, amended: a write on a well-formed sink whose active file exists either returns
normally, and then the bytes of the record are the last bytes of the active file, or throws
the rotation failure, and then the record is not written: the active file is left empty with
a size counter of 0. -/
theorem write_appends_unless_thrown (s : sink) (w : World) (f : memory_buf_t) (hwf : s.wf)
    (hact : (w.files s.base_filename_).isSome = true) :
    ((sink_it_ s w f).threw = false →
      ∃ t, active_content (sink_it_ s w f).s (sink_it_ s w f).w = some (t ++ f)) ∧
    ((sink_it_ s w f).threw = true →
      will_rotate s w f = true ∧
      active_content (sink_it_ s w f).s (sink_it_ s w f).w = some [] ∧
      (sink_it_ s w f).s.current_size_ = 0) := by
  obtain ⟨d, hd⟩ := Option.isSome_iff_exists.mp hact
  rw [← hwf.2.1] at hd
  by_cases h1 : (s.current_size_ + f.length) % SIZE_MOD > s.max_size_
  · by_cases h2 : real_size s w > 0
    · constructor
      · intro hok
        obtain ⟨-, -, hcontent, -⟩ := sink_it_rotated_result hwf h1 h2 hok
        exact ⟨[], by simpa using hcontent⟩
      · intro hthrew
        refine ⟨(will_rotate_iff s w f).mpr ⟨h1, h2⟩, ?_⟩
        rw [sink_it_rotated h1 h2] at hthrew ⊢
        by_cases ht : (rotate_ (flushed_sink s w) (s.file_helper_.flush w).2).threw = true
        · rw [if_pos ht]
          obtain ⟨hfile, hfn, hpend⟩ :=
            rotate_active (flushed_sink s w) (s.file_helper_.flush w).2
          constructor
          · simp only [active_content]
            rw [hfn, hfile, hpend]
            rfl
          · rw [rotate_static, ht]
            rfl
        · rw [if_neg ht] at hthrew
          exact Bool.noConfusion hthrew
    · rw [sink_it_flushed h1 h2]
      constructor
      · intro _
        exact ⟨d ++ s.file_helper_.pending, by
          simp [active_content, file_helper.write, file_helper.flush, hd]⟩
      · intro hthrew
        exact Bool.noConfusion hthrew
  · rw [sink_it_plain h1]
    constructor
    · intro _
      exact ⟨d ++ s.file_helper_.pending, by simp [active_content, file_helper.write, hd]⟩
    · intro hthrew
      exact Bool.noConfusion hthrew

theorem write_appends_unless_thrown_witness :
    scenario_written.s.wf ∧
    (refusing_world.files scenario_written.s.base_filename_).isSome = true ∧
    (sink_it_ scenario_written.s refusing_world (record_of 60 'b')).threw = true ∧
    will_rotate scenario_written.s refusing_world (record_of 60 'b') = true :=
  ⟨scenario_written_wf, by rfl, by rfl,
    ((write_appends_unless_thrown scenario_written.s refusing_world (record_of 60 'b')
      scenario_written_wf (by rfl)).2 (by rfl)).1⟩

/-! ## Contiguity of the rotated indices -/

theorem gap_sink_wf : gap_sink.wf := by
  unfold sink.wf
  decide

theorem gap_world_contiguous :
    ∀ j, 1 ≤ j → ((slot gap_world gap_sink.base_filename_ j).isSome = true ↔ j ≤ 2) := by
  intro j hj
  have inj : ∀ i, i ≠ j → calc_filename "base".toList i ≠ calc_filename "base".toList j :=
    fun i hij e => hij (calc_filename_injective _ e)
  rcases Nat.lt_or_ge j 3 with hlt | hge
  · interval_cases j
    · exact ⟨fun _ => by omega, fun _ => by rfl⟩
    · exact ⟨fun _ => by omega, fun _ => by rfl⟩
  · have h0 : calc_filename "base".toList j ≠ "base".toList := (inj 0 (by omega)).symm
    have h1 : calc_filename "base".toList j ≠ "base.1".toList := (inj 1 (by omega)).symm
    have h2 : calc_filename "base".toList j ≠ "base.2".toList := (inj 2 (by omega)).symm
    have hnone : slot gap_world gap_sink.base_filename_ j = none := by
      show gap_world.files (calc_filename "base".toList j) = none
      simp only [gap_world]
      rw [if_neg h0, if_neg h1, if_neg h2]
    rw [hnone]
    exact ⟨fun h => absurd h (by simp), fun h => by omega⟩

/-- C8, as stated, fails on the failing path: with `max_files = 3` and the rotated files 1 and
2 present (contiguous), a write whose rotation moves file 2 onto 3 and is then refused twice
for file 1 throws and leaves the rotated files 1 and 3 without a file 2. -/
theorem gap_after_failed_rotation :
    gap_sink.wf ∧ 2 ≤ gap_sink.max_files_ ∧
    (∀ j, 1 ≤ j → ((slot gap_world gap_sink.base_filename_ j).isSome = true ↔ j ≤ 2)) ∧
    (sink_it_ gap_sink gap_world (record_of 60 'd')).threw = true ∧
    slot (sink_it_ gap_sink gap_world (record_of 60 'd')).w gap_sink.base_filename_ 1 =
      some (record_of 60 'b') ∧
    slot (sink_it_ gap_sink gap_world (record_of 60 'd')).w gap_sink.base_filename_ 2 = none ∧
    slot (sink_it_ gap_sink gap_world (record_of 60 'd')).w gap_sink.base_filename_ 3 =
      some (record_of 60 'a') ∧
    ¬ ∃ k, ∀ j, 1 ≤ j →
      ((slot (sink_it_ gap_sink gap_world (record_of 60 'd')).w gap_sink.base_filename_ j).isSome
        = true ↔ j ≤ k) := by
  have h2 : slot (sink_it_ gap_sink gap_world (record_of 60 'd')).w gap_sink.base_filename_ 2
      = none := by rfl
  have h3 : slot (sink_it_ gap_sink gap_world (record_of 60 'd')).w gap_sink.base_filename_ 3
      = some (record_of 60 'a') := by rfl
  refine ⟨gap_sink_wf, by decide, gap_world_contiguous, by rfl, by rfl, h2, h3, ?_⟩
  rintro ⟨k, hk⟩
  have hk3 := (hk 3 (by omega)).mp (by rw [h3]; rfl)
  have hk2 := (hk 2 (by omega)).mpr (by omega)
  rw [h2] at hk2
  exact absurd hk2 (by simp)

theorem chain_of_contiguous {w : World} {b : filename_t} {m k : Nat} (hk : k ≤ m)
    (hcont : ∀ j, 1 ≤ j → ((slot w b j).isSome = true ↔ j ≤ k)) :
    chain_holds w b m ((List.range k).map (fun i => (slot w b (i + 1)).getD [])) := by
  intro j hj
  by_cases hjk : j ≤ k
  · rw [if_pos (by omega)]
    obtain ⟨x, hx⟩ := Option.isSome_iff_exists.mp ((hcont j hj).mpr hjk)
    have hlt : j - 1 < ((List.range k).map (fun i => (slot w b (i + 1)).getD [])).length := by
      simp; omega
    rw [List.getElem?_eq_getElem hlt]
    simp only [List.getElem_map, List.getElem_range]
    rw [show j - 1 + 1 = j by omega, hx]
    rfl
  · have hnone : slot w b j = none := by
      cases hs : slot w b j with
      | none => rfl
      | some x =>
        have := (hcont j hj).mp (by rw [hs]; rfl)
        exact absurd this hjk
    rw [hnone]
    split
    · symm
      apply List.getElem?_eq_none_iff.mpr
      simp; omega
    · rfl

theorem present_of_chain {w : World} {b : filename_t} {m : Nat} {H : List memory_buf_t}
    (hchain : chain_holds w b m H) :
    ∀ j, 1 ≤ j → ((slot w b j).isSome = true ↔ j ≤ min H.length m) := by
  intro j hj
  rw [hchain j hj]
  by_cases hle : j ≤ m
  · rw [if_pos hle]
    constructor
    · intro h
      obtain ⟨x, hx⟩ := Option.isSome_iff_exists.mp h
      have := (List.getElem?_eq_some_iff.mp hx).1
      exact Nat.le_min.mpr ⟨by omega, hle⟩
    · intro h
      have hlt : j - 1 < H.length := by
        have := (Nat.le_min.mp h).1
        omega
      rw [List.getElem?_eq_getElem hlt]
      rfl
  · rw [if_neg hle]
    constructor
    · intro h; exact absurd h (by simp)
    · intro h; exact absurd (Nat.le_min.mp h).2 hle

/-- C8, amended: if the rotated indices present before a write are exactly `1..k` with
`k <= max_files`, then after a write that returns normally they are exactly `1..k'` with
`k' <= max_files`: `k' = k` when the write did not rotate and `k' = min(k+1, max_files)` when
it did.  (A write whose rotation is refused twice throws, and is not covered.) -/
theorem contiguity_preserved (s : sink) (w : World) (f : memory_buf_t) (k : Nat) (hwf : s.wf)
    (hk : k ≤ s.max_files_)
    (hcont : ∀ j, 1 ≤ j → ((slot w s.base_filename_ j).isSome = true ↔ j ≤ k))
    (hok : (sink_it_ s w f).threw = false) :
    (if will_rotate s w f then min (k + 1) s.max_files_ else k) ≤ s.max_files_ ∧
    ∀ j, 1 ≤ j → ((slot (sink_it_ s w f).w s.base_filename_ j).isSome = true ↔
      j ≤ (if will_rotate s w f then min (k + 1) s.max_files_ else k)) := by
  have hchain := sink_it_chain f hwf hok (chain_of_contiguous hk hcont)
  have hpres := present_of_chain hchain
  constructor
  · split
    · exact Nat.min_le_right _ _
    · exact hk
  · intro j hj
    rw [hpres j hj]
    cases hr : will_rotate s w f with
    | false =>
      simp only [Bool.false_eq_true, if_false, List.nil_append, List.length_map,
        List.length_range]
      rw [Nat.min_eq_left hk]
    | true =>
      simp only [if_true, List.length_append, List.length_cons, List.length_nil,
        List.length_map, List.length_range]
      rw [show 0 + 1 + k = k + 1 by omega]

theorem contiguity_preserved_witness :
    scenario_written.s.wf ∧ 0 ≤ scenario_written.s.max_files_ ∧
    (∀ j, 1 ≤ j →
      ((slot scenario_written.w scenario_written.s.base_filename_ j).isSome = true ↔ j ≤ 0)) ∧
    (sink_it_ scenario_written.s scenario_written.w (record_of 60 'b')).threw = false ∧
    (if will_rotate scenario_written.s scenario_written.w (record_of 60 'b') then
      min (0 + 1) scenario_written.s.max_files_ else 0) ≤ scenario_written.s.max_files_ :=
  have hcont : ∀ j, 1 ≤ j →
      ((slot scenario_written.w scenario_written.s.base_filename_ j).isSome = true ↔ j ≤ 0) :=
    fun j hj => by
      have h := scenario_no_rotated j hj
      have e : slot scenario_written.w scenario_written.s.base_filename_ j =
          slot scenario_world scenario_sink.base_filename_ j :=
        sink_it_slot_of_not_rotate scenario_wf scenario_world (record_of 60 'a') (by rfl) hj
      rw [e, h]
      exact ⟨fun h => absurd h (by simp), fun h => by omega⟩
  ⟨scenario_written_wf, Nat.zero_le _, hcont, by rfl,
    (contiguity_preserved scenario_written.s scenario_written.w (record_of 60 'b') 0
      scenario_written_wf (Nat.zero_le _) hcont (by rfl)).1⟩

/-! ## Staging of archives: the shift -/

theorem archive_name_injective (basename file_ext : filename_t) {i j : Nat}
    (h : archive_name basename file_ext i = archive_name basename file_ext j) : i = j := by
  unfold archive_name at h
  simp only [List.append_assoc] at h
  have h1 := List.append_cancel_left h
  have h2 := List.append_cancel_left h1
  have h3 := List.append_cancel_right h2
  exact to_string_injective h3

/-- On a system that refuses no rename, `rename_file_` moves the source onto the target, and
only removes the target when there is no source. -/
theorem rename_file_accepting {w : World} {src tgt : filename_t} (hne : src ≠ tgt)
    (hacc : ∀ x ∈ w.rename_fail, x = false) :
    (∀ q, (rename_file_ w src tgt).2.files q =
      if q = tgt then w.files src else if q = src then none else w.files q) ∧
    (∀ x ∈ (rename_file_ w src tgt).2.rename_fail, x = false) := by
  unfold rename_file_ os.rename os.remove
  dsimp only
  simp only [hne, if_false]
  cases hs : w.files src with
  | none =>
    refine ⟨?_, hacc⟩
    intro q
    by_cases h1 : q = tgt
    · simp [h1]
    · by_cases h2 : q = src
      · simp [h1, h2, hs]
      · simp [h1, h2]
  | some c =>
    cases hscript : w.rename_fail with
    | nil =>
      refine ⟨?_, by simp⟩
      intro q
      by_cases h1 : q = tgt <;> simp [h1]
    | cons x rest =>
      have hx : x = false := hacc x (by rw [hscript]; simp)
      subst hx
      refine ⟨?_, ?_⟩
      · intro q
        by_cases h1 : q = tgt <;> simp [h1]
      · intro y hy
        exact hacc y (by rw [hscript]; exact List.mem_cons_of_mem _ (by simpa using hy))

/-- The shifting loop on a system that refuses no rename, started at index `a` for `n` turns:
each name from `a` to `a+n-1` receives what the next name held, the name `a+n` is left without
a file, and the other names of the family keep theirs. -/
theorem shift_fold_accepting (name : Nat → filename_t) (hinj : ∀ i j, name i = name j → i = j) :
    ∀ (n a : Nat) (w : World), (∀ x ∈ w.rename_fail, x = false) →
      (∀ k, a ≤ k → k < a + n →
        ((List.range' a n).foldl
          (fun acc index => (rename_file_ acc (name (index + 1)) (name index)).2) w).files
            (name k) = w.files (name (k + 1))) ∧
      (1 ≤ n →
        ((List.range' a n).foldl
          (fun acc index => (rename_file_ acc (name (index + 1)) (name index)).2) w).files
            (name (a + n)) = none) ∧
      (∀ k, (k < a ∨ a + n < k) →
        ((List.range' a n).foldl
          (fun acc index => (rename_file_ acc (name (index + 1)) (name index)).2) w).files
            (name k) = w.files (name k)) := by
  intro n
  induction n with
  | zero =>
    intro a w _
    refine ⟨fun k h1 h2 => absurd h2 (by omega), fun h => absurd h (by decide),
      fun k _ => rfl⟩
  | succ n ih =>
    intro a w hacc
    have hne : name (a + 1) ≠ name a := fun e => by
      have := hinj _ _ e
      omega
    obtain ⟨hfiles, hacc1⟩ := rename_file_accepting hne hacc
    obtain ⟨ih1, ih2, ih3⟩ := ih (a + 1) (rename_file_ w (name (a + 1)) (name a)).2 hacc1
    have ne : ∀ {i j : Nat}, i ≠ j → name i ≠ name j := fun hij e => hij (hinj _ _ e)
    rw [List.range'_succ, List.foldl_cons]
    refine ⟨?_, ?_, ?_⟩
    · intro k h1 h2
      rcases Nat.eq_or_lt_of_le h1 with hk | hk
      · subst hk
        rw [ih3 a (Or.inl (by omega)), hfiles]
        simp
      · rw [ih1 k (by omega) (by omega), hfiles]
        simp [ne (show k + 1 ≠ a by omega), ne (show k + 1 ≠ a + 1 by omega)]
    · intro _
      rcases Nat.eq_zero_or_pos n with hn | hn
      · subst hn
        simp only [List.range'_zero, List.foldl_nil]
        rw [hfiles]
        simp [ne (show a + (0 + 1) ≠ a by omega)]
      · have := ih2 hn
        rw [show a + 1 + n = a + (n + 1) by omega] at this
        exact this
    · intro k hk
      rw [ih3 k (by omega), hfiles]
      simp [ne (show k ≠ a by omega), ne (show k ≠ a + 1 by omega)]

/-- C10, as stated, fails for `max_archives = 1`, the configuration of `LogWrapper::Init`:
the archive slot 1 exists when staging runs, and after staging it still holds its archive; it
has not been freed. -/
theorem archive_slot_not_freed :
    archive_sink.wf ∧ 1 ≤ archive_sink.max_compressed_files_ ∧
    os.path_exists archive_world archive_sink.dir_ = true ∧
    os.path_exists archive_world
      (archive_name (compress_basename archive_sink) archive_sink.file_ext_
        archive_sink.max_compressed_files_) = true ∧
    archive_name (compress_basename archive_sink) archive_sink.file_ext_ 1 =
      "logs/app.1.txt.zip".toList ∧
    (compressW_ archive_sink archive_world).w.files
      (archive_name (compress_basename archive_sink) archive_sink.file_ext_
        archive_sink.max_compressed_files_) = some "old".toList ∧
    (compressW_ archive_sink archive_world).w.files
      (archive_name (compress_basename archive_sink) archive_sink.file_ext_
        archive_sink.max_compressed_files_) ≠ none := by
  refine ⟨by unfold sink.wf; decide, by decide, by rfl, by rfl, by rfl, by rfl, ?_⟩
  have h : (compressW_ archive_sink archive_world).w.files
      (archive_name (compress_basename archive_sink) archive_sink.file_ext_
        archive_sink.max_compressed_files_) = some "old".toList := by rfl
  rw [h]
  simp

/-- C10, amended: for a well-formed sink whose folder `dir_` exists and `max_archives >= 1`,
on a system that refuses no rename: if the archive slot at `max_archives` exists when staging
runs, then afterwards every archive slot `k` with `1 <= k <= max_archives-1` holds exactly what
slot `k+1` held before; for `max_archives >= 2` the slot at `max_archives` is left without a
file, while for `max_archives = 1` nothing moves and slot 1 keeps its archive; the slot at
`max_archives` is the target of the new archive; the active file, the rotated files and every
file that is not an archive slot are unchanged. -/
theorem staging_shifts_archives (s : sink) (w : World) (hwf : s.wf)
    (hdir : os.path_exists w s.dir_ = true) (hmax : 1 ≤ s.max_compressed_files_)
    (hfull : os.path_exists w
      (archive_name (compress_basename s) s.file_ext_ s.max_compressed_files_) = true)
    (hacc : ∀ x ∈ w.rename_fail, x = false) :
    (∀ k, 1 ≤ k → k ≤ s.max_compressed_files_ - 1 →
      (compressW_ s w).w.files (archive_name (compress_basename s) s.file_ext_ k) =
        w.files (archive_name (compress_basename s) s.file_ext_ (k + 1))) ∧
    (2 ≤ s.max_compressed_files_ →
      (compressW_ s w).w.files
        (archive_name (compress_basename s) s.file_ext_ s.max_compressed_files_) = none) ∧
    (s.max_compressed_files_ = 1 →
      (compressW_ s w).w.files (archive_name (compress_basename s) s.file_ext_ 1) =
        w.files (archive_name (compress_basename s) s.file_ext_ 1)) ∧
    (compressW_ s w).compress_target_file =
      archive_name (compress_basename s) s.file_ext_ s.max_compressed_files_ ∧
    (∀ i, slot (compressW_ s w).w s.base_filename_ i = slot w s.base_filename_ i) ∧
    (∀ q, (∀ k, q ≠ archive_name (compress_basename s) s.file_ext_ k) →
      (compressW_ s w).w.files q = w.files q) := by
  have h0 : s.max_compressed_files_ ≠ 0 := by omega
  have hw : (compressW_ s w).w =
      shift_archives (compress_basename s) s.file_ext_ s.max_compressed_files_ w := by
    unfold compressW_
    simp [h0, hdir, hfull]
  have htarget : (compressW_ s w).compress_target_file =
      archive_name (compress_basename s) s.file_ext_ s.max_compressed_files_ := by
    unfold compressW_
    simp [h0, hdir, hfull]
  obtain ⟨hshift, hlast, -⟩ := shift_fold_accepting
    (archive_name (compress_basename s) s.file_ext_)
    (fun i j e => archive_name_injective _ _ e) (s.max_compressed_files_ - 1) 1 w hacc
  refine ⟨?_, ?_, ?_, htarget, fun i => compress_slot s w hwf i,
    fun q hq => compress_files_frame s w q (fun _ => hq)⟩
  · intro k h1 h2
    rw [hw]
    exact hshift k h1 (by omega)
  · intro h2
    rw [hw]
    have := hlast (by omega)
    rw [show 1 + (s.max_compressed_files_ - 1) = s.max_compressed_files_ by omega] at this
    exact this
  · intro h1
    rw [hw, h1]
    rfl

theorem staging_shifts_archives_witness :
    archive_sink_two.wf ∧
    os.path_exists archive_world archive_sink_two.dir_ = true ∧
    1 ≤ archive_sink_two.max_compressed_files_ ∧
    os.path_exists archive_world
      (archive_name (compress_basename archive_sink_two) archive_sink_two.file_ext_
        archive_sink_two.max_compressed_files_) = true ∧
    (∀ x ∈ archive_world.rename_fail, x = false) ∧
    (compressW_ archive_sink_two archive_world).w.files
      (archive_name (compress_basename archive_sink_two) archive_sink_two.file_ext_ 1) =
      archive_world.files
        (archive_name (compress_basename archive_sink_two) archive_sink_two.file_ext_ (1 + 1)) :=
  ⟨by unfold sink.wf; decide, by rfl, by decide, by rfl, by decide,
    (staging_shifts_archives archive_sink_two archive_world (by unfold sink.wf; decide) (by rfl)
      (by decide) (by rfl) (by decide)).1 1 (Nat.le_refl 1) (by decide)⟩

/-! ## The checks of the constructor -/

theorem config_messages_distinct :
    ("rotating_file_sink: failed renaming" : String) ≠
        "rotating sink constructor: max_size arg cannot be zero" ∧
      ("rotating_file_sink: failed renaming" : String) ≠
        "rotating sink constructor: max_files arg cannot exceed 200000" := by
  constructor <;> decide

/-- Past its two checks, the constructor returns a sink with the bounds it was given, or
throws the rotation failure of its `rotate_on_open` branch; it never throws a configuration
error there. -/
theorem construct_accepted (b : filename_t) {ms mf : Nat} (mc : Nat) (roo : Bool) (w : World)
    (h0 : ms ≠ 0) (h1 : ¬ mf > 200000) :
    ¬ is_config_error (construct b ms mf mc roo w).1 ∧
    ((construct b ms mf mc roo w).1 = Except.error "rotating_file_sink: failed renaming" ∨
      ∃ s, (construct b ms mf mc roo w).1 = Except.ok s ∧ s.base_filename_ = b ∧
        s.max_size_ = ms ∧ s.max_files_ = mf ∧ s.max_compressed_files_ = mc) := by
  rw [construct_unfold roo w h0 h1]
  split
  · split
    · refine ⟨?_, Or.inl rfl⟩
      rintro (h | h)
      · exact config_messages_distinct.1 (Except.error.inj h)
      · exact config_messages_distinct.2 (Except.error.inj h)
    · refine ⟨?_, Or.inr ⟨_, rfl, ?_⟩⟩
      · rintro (h | h) <;> exact Except.noConfusion h
      · rw [rotate_static]
        exact ⟨rfl, rfl, rfl, rfl⟩
  · refine ⟨?_, Or.inr ⟨_, rfl, rfl, rfl, rfl, rfl⟩⟩
    rintro (h | h) <;> exact Except.noConfusion h

/-- C12: the constructor fails with a configuration error if and only if `max_size = 0` or
`max_files > 200000`, and then it leaves the world as it found it: no file opened, created or
renamed.  Every `max_size >= 1` with `max_files <= 200000` is accepted, `max_files = 200000`
included: the file is opened and, without `rotate_on_open`, the sink is returned with the bounds
it was given (with `rotate_on_open` the only other outcome is the rotation failure). -/
theorem construct_config_error_iff (b : filename_t) (ms mf mc : Nat) (roo : Bool) (w : World) :
    (is_config_error (construct b ms mf mc roo w).1 ↔ (ms = 0 ∨ mf > 200000)) ∧
    (is_config_error (construct b ms mf mc roo w).1 → (construct b ms mf mc roo w).2 = w) ∧
    ((1 ≤ ms ∧ mf ≤ 200000) →
      ((construct b ms mf mc roo w).1 = Except.error "rotating_file_sink: failed renaming" ∨
        ∃ s, (construct b ms mf mc roo w).1 = Except.ok s ∧ s.base_filename_ = b ∧
          s.max_size_ = ms ∧ s.max_files_ = mf ∧ s.max_compressed_files_ = mc)) ∧
    ((1 ≤ ms ∧ mf ≤ 200000) →
      ∃ s, construct b ms mf mc false w =
          (Except.ok s, (file_helper.open_ (calc_filename b 0) false w).2) ∧
        s.max_size_ = ms ∧ s.max_files_ = mf ∧
        (file_helper.open_ (calc_filename b 0) false w).2.files b = some ((w.files b).getD [])) ∧
    (∃ s, (construct b 1 200000 mc false w).1 = Except.ok s) := by
  have hacc : ∀ {ms mf : Nat}, 1 ≤ ms ∧ mf ≤ 200000 →
      ∃ s, construct b ms mf mc false w =
          (Except.ok s, (file_helper.open_ (calc_filename b 0) false w).2) ∧
        s.max_size_ = ms ∧ s.max_files_ = mf := by
    intro ms mf h
    rw [construct_unfold false w (show ms ≠ 0 by omega) (show ¬ mf > 200000 by omega)]
    exact ⟨initial_sink b ms mf mc w, by simp, rfl, rfl⟩
  by_cases h0 : ms = 0
  · have hres : construct b ms mf mc roo w =
        (Except.error "rotating sink constructor: max_size arg cannot be zero", w) := by
      simp [construct, h0]
    refine ⟨⟨fun _ => Or.inl h0, fun _ => ?_⟩, fun _ => by rw [hres], fun h => by omega,
      fun h => by omega, ?_⟩
    · rw [hres]; exact Or.inl rfl
    · obtain ⟨s, hs, -⟩ := hacc (show 1 ≤ 1 ∧ 200000 ≤ 200000 by omega)
      exact ⟨s, by rw [hs]⟩
  · by_cases h1 : mf > 200000
    · have hres : construct b ms mf mc roo w =
          (Except.error "rotating sink constructor: max_files arg cannot exceed 200000", w) := by
        simp [construct, h0, h1]
      refine ⟨⟨fun _ => Or.inr h1, fun _ => ?_⟩, fun _ => by rw [hres], fun h => by omega,
        fun h => by omega, ?_⟩
      · rw [hres]; exact Or.inr rfl
      · obtain ⟨s, hs, -⟩ := hacc (show 1 ≤ 1 ∧ 200000 ≤ 200000 by omega)
        exact ⟨s, by rw [hs]⟩
    · obtain ⟨hnot, hout⟩ := construct_accepted b mc roo w h0 h1
      refine ⟨⟨fun h => absurd h hnot, fun h => ?_⟩, fun h => absurd h hnot, fun _ => hout,
        fun h => ?_, ?_⟩
      · rcases h with h | h
        · exact absurd h h0
        · exact absurd h h1
      · obtain ⟨s, hs, h2, h3⟩ := hacc h
        refine ⟨s, hs, h2, h3, ?_⟩
        simp [file_helper.open_, calc_filename_zero]
      · obtain ⟨s, hs, -⟩ := hacc (show 1 ≤ 1 ∧ 200000 ≤ 200000 by omega)
        exact ⟨s, by rw [hs]⟩

/-! ## Archive names against rotated names -/

theorem find_last_eq_none {p : Char → Bool} :
    ∀ {s : List Char}, (∀ c ∈ s, p c = false) → find_last p s = none := by
  intro s
  induction s with
  | nil => intro _; rfl
  | cons x xs ih =>
    intro h
    have h1 := ih (fun c hc => h c (List.mem_cons_of_mem _ hc))
    have h2 := h x (List.mem_cons_self _ _)
    simp [find_last, h1, h2]

/-- A path without folder separator gives the constructor an empty `dir_` and an empty
`basename_`: neither of its two `rfind` tests assigns `basename_`. -/
theorem no_separator_members {path : filename_t}
    (h : find_last_of path folder_seps_filename = none) :
    os.dir_name path = [] ∧ basename_of path = [] := by
  have hall : ∀ c ∈ path, folder_seps_filename.contains c = false := find_last_none h
  have h1 : rfind path '/' = none := by
    apply find_last_eq_none
    intro c hc
    have := hall c hc
    by_contra hne
    have hc' : c = '/' := by simpa using hne
    subst hc'
    exact absurd this (by decide)
  have h2 : rfind path '\\' = none := by
    apply find_last_eq_none
    intro c hc
    have := hall c hc
    by_contra hne
    have hc' : c = '\\' := by simpa using hne
    subst hc'
    exact absurd this (by decide)
  exact ⟨by simp [os.dir_name, h], by simp [basename_of, h1, h2]⟩

/-- A path with a folder part and no backslash is recomposed by `dir_ + "/" + basename_`. -/
theorem recompose_stem {stem : filename_t} (hdir : os.dir_name stem ≠ [])
    (hbs : '\\' ∉ stem) :
    os.dir_name stem ++ "/".toList ++ basename_of stem = stem := by
  have hq : rfind stem '\\' = none := by
    apply find_last_eq_none
    intro c hc
    by_contra hne
    have hc' : c = '\\' := by simpa using hne
    subst hc'
    exact hbs hc
  have hsame : find_last_of stem folder_seps_filename = rfind stem '/' := by
    apply find_last_congr
    intro c hc
    have hcb : c ≠ '\\' := fun e => hbs (e ▸ hc)
    by_cases h1 : c = '/'
    · subst h1; decide
    · simp [folder_seps_filename, hcb, h1]
  cases hp : rfind stem '/' with
  | none => exact absurd (by simp [os.dir_name, hsame, hp]) hdir
  | some pos =>
    obtain ⟨c, hc, hs, -⟩ := find_last_some hp
    have hc' : c = '/' := by simpa using hc
    subst hc'
    have hbase : basename_of stem = stem.drop (pos + 1) := by
      simp [basename_of, hq, hp]
    have hd : os.dir_name stem = stem.take pos := by
      simp [os.dir_name, hsame, hp]
    rw [hbase, hd]
    simpa [List.append_assoc] using hs.symm

/-- Where the archive names do compose the rotated names: for a well-formed sink whose stem has
a folder part and no backslash, staging builds its names on the stem itself. -/
theorem archive_name_of_folder_base {s : sink} (hwf : s.wf) (hdir : s.dir_ ≠ [])
    (hbs : '\\' ∉ (split_by_extension s.base_filename_).1) {i : Nat} (hi : 1 ≤ i) :
    compress_basename s = (split_by_extension s.base_filename_).1 ∧
    archive_name (compress_basename s) s.file_ext_ i =
      calc_filename s.base_filename_ i ++ ['.'] ++ compress_ext ∧
    rotated_name (compress_basename s) s.file_ext_ i = calc_filename s.base_filename_ i := by
  obtain ⟨-, -, hext, hd, hbn⟩ := hwf
  have hb : compress_basename s = (split_by_extension s.base_filename_).1 := by
    rw [compress_basename_of_dir hdir, hd, hbn]
    exact recompose_stem (by rw [← hd]; exact hdir) hbs
  refine ⟨hb, ?_, ?_⟩
  · rw [hb, hext, calc_filename_pos _ hi]
    rfl
  · rw [hb, hext, calc_filename_pos _ hi]
    rfl

theorem compress_file_to_compress (s : sink) (w : World) (h0 : s.max_compressed_files_ ≠ 0) :
    (compressW_ s w).file_to_compress =
      (((List.range' 1 s.max_compressed_files_).find?
        (fun index => os.path_exists (compressW_ s w).w
          (rotated_name (compress_basename s) s.file_ext_ index))).map
            (rotated_name (compress_basename s) s.file_ext_)).getD [] := by
  unfold compressW_
  simp only [h0, if_false]

/-- Where staging does select the rotated file 1: for a well-formed sink whose stem has a
folder part and no backslash, with `max_archives >= 1`, when that file exists. -/
theorem file_to_compress_of_folder_base {s : sink} {w : World} (hwf : s.wf) (hdir : s.dir_ ≠ [])
    (hbs : '\\' ∉ (split_by_extension s.base_filename_).1)
    (hmax : 1 ≤ s.max_compressed_files_)
    (hex : os.path_exists w (calc_filename s.base_filename_ 1) = true) :
    (compressW_ s w).file_to_compress = calc_filename s.base_filename_ 1 := by
  obtain ⟨-, -, hrot⟩ := archive_name_of_folder_base hwf hdir hbs (Nat.le_refl 1)
  have hex' : os.path_exists (compressW_ s w).w
      (rotated_name (compress_basename s) s.file_ext_ 1) = true := by
    rw [hrot, ← hex]
    exact path_exists_congr (compress_slot s w hwf 1) (by rw [compress_dirs])
  rw [compress_file_to_compress s w (by omega)]
  obtain ⟨m, hm⟩ : ∃ m, s.max_compressed_files_ = m + 1 := ⟨s.max_compressed_files_ - 1, by omega⟩
  rw [hm, List.range'_succ, List.find?_cons, hex']
  exact hrot

/-- C11: the archive names do not compose the rotated names for a base path without folder,
the base of the scenarios of the spec.  The constructor leaves `dir_` and `basename_` empty
there, so the archive slot 1 is named `./.1.zip` and not `base.1.zip`, and inside the write
that rotates, with the rotated file `base.1` on disk, staging selects no file and no archive
slot.  For every base whose stem has no folder separator the archive names are `./.`, the
index, the extension and `.zip`: the stem is lost. -/
theorem archive_name_without_stem :
    constructed (construct "base".toList 100 2 1 false World.empty) =
      some (scenario_sink, scenario_world) ∧
    scenario_sink.dir_ = [] ∧ scenario_sink.basename_ = [] ∧
    archive_name (compress_basename scenario_sink) scenario_sink.file_ext_ 1 =
      "./.1.zip".toList ∧
    calc_filename scenario_sink.base_filename_ 1 ++ ['.'] ++ compress_ext =
      "base.1.zip".toList ∧
    (sink_it_ scenario_written.s scenario_written.w (record_of 60 'b')).w =
      (compressW_ scenario_rotated.s scenario_rotated.w).w ∧
    slot scenario_rotated.w "base".toList 1 = some (record_of 60 'a') ∧
    calc_filename "base".toList 1 = "base.1".toList ∧
    (compressW_ scenario_rotated.s scenario_rotated.w).file_to_compress = [] ∧
    (compressW_ scenario_rotated.s scenario_rotated.w).compress_target_file = [] ∧
    (∀ (b : filename_t) (ms mf mc : Nat) (w : World) (i : Nat),
      find_last_of (split_by_extension b).1 folder_seps_filename = none →
      archive_name (compress_basename (initial_sink b ms mf mc w))
          (initial_sink b ms mf mc w).file_ext_ i =
        "./.".toList ++ to_string i ++ (split_by_extension b).2 ++ ".zip".toList) := by
  refine ⟨by rfl, by rfl, by rfl, by decide, by decide, by rfl, by rfl, by decide, by rfl,
    by rfl, ?_⟩
  intro b ms mf mc w i h
  obtain ⟨hd, hbn⟩ := no_separator_members h
  have hb : compress_basename (initial_sink b ms mf mc w) = "./".toList := by
    simp [compress_basename, initial_sink, hd, hbn]
  rw [hb]
  simp [archive_name, initial_sink, compress_ext]

/-! ## The split of the base name against its reference -/

/-- The reference split is the split at the last `.`: its parts recompose the base, and its
extension is empty when the base has no `.`, and otherwise opens with a `.` that no other `.`
follows. -/
theorem split_at_last_dot_spec :
    ∀ (base : filename_t),
      (split_at_last_dot base).1 ++ (split_at_last_dot base).2 = base ∧
      (('.' ∉ base ∧ (split_at_last_dot base).2 = []) ∨
        ∃ e, (split_at_last_dot base).2 = '.' :: e ∧ '.' ∉ e) := by
  intro base
  induction base with
  | nil => exact ⟨rfl, Or.inl ⟨by simp, rfl⟩⟩
  | cons c cs ih =>
    obtain ⟨happ, hshape⟩ := ih
    by_cases hempty : (split_at_last_dot cs).2 = []
    · have hno : '.' ∉ cs := by
        rcases hshape with ⟨h, -⟩ | ⟨e, he, -⟩
        · exact h
        · rw [hempty] at he; exact absurd he (by simp)
      by_cases hc : c = '.'
      · subst hc
        have hval : split_at_last_dot ('.' :: cs) = ([], '.' :: cs) := by
          simp [split_at_last_dot, hempty]
        rw [hval]
        exact ⟨rfl, Or.inr ⟨cs, rfl, hno⟩⟩
      · have hval : split_at_last_dot (c :: cs) = (c :: cs, []) := by
          simp [split_at_last_dot, hempty, hc]
        rw [hval]
        refine ⟨by simp, Or.inl ⟨?_, rfl⟩⟩
        intro hmem
        rcases List.mem_cons.mp hmem with h | h
        · exact hc h.symm
        · exact hno h
    · have hne : (split_at_last_dot cs).2.isEmpty = false := by
        cases h : (split_at_last_dot cs).2 with
        | nil => exact absurd h hempty
        | cons x t => rfl
      have hval : split_at_last_dot (c :: cs) =
          (c :: (split_at_last_dot cs).1, (split_at_last_dot cs).2) := by
        simp [split_at_last_dot, hne]
      rw [hval]
      refine ⟨by simp [happ], ?_⟩
      rcases hshape with ⟨-, h⟩ | h
      · exact absurd h hempty
      · exact Or.inr h

/-- The split at the last `.` is unique. -/
theorem split_at_last_dot_unique {base stem ext : filename_t} (happ : stem ++ ext = base)
    (hshape : ('.' ∉ base ∧ ext = []) ∨ ∃ e, ext = '.' :: e ∧ '.' ∉ e) :
    split_at_last_dot base = (stem, ext) := by
  obtain ⟨happ', hshape'⟩ := split_at_last_dot_spec base
  have hdot : ∀ {s e : filename_t}, s ++ '.' :: e = base → '.' ∈ base := by
    intro s e h
    rw [← h]; simp
  rcases hshape with ⟨hno, he⟩ | ⟨e, he, hdote⟩
  · rcases hshape' with ⟨-, he'⟩ | ⟨e', he', -⟩
    · rw [he] at happ
      rw [he'] at happ'
      simp only [List.append_nil] at happ happ'
      exact Prod.ext (by rw [happ', happ]) (by rw [he', he])
    · rw [he'] at happ'
      exact absurd (hdot happ') hno
  · rcases hshape' with ⟨hno, -⟩ | ⟨e', he', hdote'⟩
    · rw [he] at happ
      exact absurd (hdot happ) hno
    · rw [he] at happ
      rw [he'] at happ'
      obtain ⟨h1, h2⟩ := split_at_last_char (happ'.trans happ.symm) hdote' hdote
      exact Prod.ext h1 (by rw [he', he, h2])

theorem not_separator_dot : folder_seps_filename.contains '.' = false := by decide

theorem ends_with_separator_concat (t : List Char) (c : Char) :
    ends_with_separator (t ++ [c]) = folder_seps_filename.contains c := by
  simp [ends_with_separator]

theorem ends_with_separator_nil : ends_with_separator [] = false := rfl

theorem exists_concat_of_ne_nil {b : List Char} (h : b ≠ []) : ∃ t x, b = t ++ [x] := by
  cases hr : b.reverse with
  | nil =>
    have : b = [] := by simpa using hr
    exact absurd this h
  | cons x r =>
    refine ⟨r.reverse, x, ?_⟩
    have := congrArg List.reverse hr
    simpa using this

/-- The index test `folder_index >= ext_index - 1` of the split, read on the text: with the
last `.` after the stem `S` and the last folder separator after `P`, the test holds exactly when
a separator stands in the extension or ends the stem. -/
theorem separator_near_dot {S e P Q : List Char} {c : Char} (hS : S ≠ [])
    (h : S ++ '.' :: e = P ++ c :: Q) (hc : folder_seps_filename.contains c = true)
    (hQ : ∀ d ∈ Q, folder_seps_filename.contains d = false) :
    (P.length ≥ S.length - 1) ↔
      ((('.' :: e).any (fun d => folder_seps_filename.contains d)) = true ∨
        ends_with_separator S = true) := by
  have hSlen : 0 < S.length := List.length_pos.mpr hS
  have h' : S ++ '.' :: e = (P ++ [c]) ++ Q := by simpa using h
  rcases List.append_eq_append_iff.mp h' with ⟨a, h1, h2⟩ | ⟨b, h1, h2⟩
  · have hlen := congrArg List.length h1
    simp only [List.length_append, List.length_cons, List.length_nil] at hlen
    refine ⟨fun _ => ?_, fun _ => by omega⟩
    cases a with
    | nil =>
      right
      rw [List.append_nil] at h1
      rw [← h1, ends_with_separator_concat]
      exact hc
    | cons x a' =>
      left
      simp only [List.cons_append, List.cons.injEq] at h2
      obtain ⟨hx, he⟩ := h2
      subst hx
      have hmem : c ∈ '.' :: a' :=
        mem_of_append_eq_append_singleton h1.symm (by simp)
      rcases List.mem_cons.mp hmem with hdot | hin
      · rw [hdot, not_separator_dot] at hc
        exact absurd hc (by decide)
      · rw [List.any_eq_true]
        exact ⟨c, List.mem_cons_of_mem _ (by rw [he]; exact List.mem_append_left _ hin), hc⟩
  · cases b with
    | nil =>
      simp only [List.append_nil] at h1
      have hlen := congrArg List.length h1
      simp only [List.length_append, List.length_cons, List.length_nil] at hlen
      refine ⟨fun _ => Or.inr ?_, fun _ => by omega⟩
      rw [h1, ends_with_separator_concat]
      exact hc
    | cons x b' =>
      have hlen := congrArg List.length h1
      simp only [List.length_append, List.length_cons, List.length_nil] at hlen
      constructor
      · intro hge
        omega
      · intro hor
        exfalso
        rcases hor with hany | hend
        · rw [List.any_eq_true] at hany
          obtain ⟨d, hd, hsep⟩ := hany
          rcases List.mem_cons.mp hd with hdot | hin
          · rw [hdot, not_separator_dot] at hsep
            exact absurd hsep (by decide)
          · have := hQ d (by rw [h2]; simp [hin])
            rw [this] at hsep
            exact absurd hsep (by decide)
        · obtain ⟨t, y, hty⟩ := exists_concat_of_ne_nil (show x :: b' ≠ [] by simp)
          rw [h1, hty, ← List.append_assoc, ends_with_separator_concat] at hend
          have := hQ y (by rw [h2, hty]; simp)
          rw [this] at hend
          exact absurd hend (by decide)

/-- The split of the implementation against the reference: it is the split at the last `.`,
except for the bases of `keeps_whole`, which it leaves whole. -/
theorem split_by_extension_eq (base : filename_t) :
    split_by_extension base =
      if keeps_whole base then (base, []) else split_at_last_dot base := by
  cases h : rfind base '.' with
  | none =>
    have hno : '.' ∉ base := by
      intro hmem
      have := find_last_none h '.' hmem
      simp at this
    have hsp : split_at_last_dot base = (base, []) :=
      split_at_last_dot_unique (by simp) (Or.inl ⟨hno, rfl⟩)
    have hk : keeps_whole base = true := by simp [keeps_whole, hsp]
    rw [hk, if_pos rfl]
    simp [split_by_extension, h]
  | some i =>
    obtain ⟨c, hc, hdrop, hrest⟩ := drop_of_find_last h
    have hc' : c = '.' := by simpa using hc
    subst hc'
    have hlt := find_last_lt h
    have happ : base.take i ++ '.' :: base.drop (i + 1) = base := by
      rw [← hdrop]; exact List.take_append_drop i base
    have hnodot : '.' ∉ base.drop (i + 1) := by
      intro hmem
      have := hrest _ hmem
      simp at this
    have hsp : split_at_last_dot base = (base.take i, '.' :: base.drop (i + 1)) :=
      split_at_last_dot_unique happ (Or.inr ⟨_, rfl, hnodot⟩)
    have hSlen : (base.take i).length = i := by
      rw [List.length_take]; omega
    have helen : (base.drop (i + 1)).length = base.length - (i + 1) := List.length_drop _ _
    by_cases h1 : i = 0 ∨ i = base.length - 1
    · have hk : keeps_whole base = true := by
        rcases h1 with h0 | hl
        · have : base.take i = [] := by rw [h0]; rfl
          simp [keeps_whole, hsp, this]
        · have : base.drop (i + 1) = [] := List.drop_eq_nil_of_le (by omega)
          simp [keeps_whole, hsp, this]
      rw [hk, if_pos rfl]
      simp [split_by_extension, h, h1]
    · have hS : base.take i ≠ [] := by
        intro e
        rw [e] at hSlen
        simp at hSlen
        omega
      have he : base.drop (i + 1) ≠ [] := by
        intro e
        rw [e] at helen
        simp at helen
        omega
      have hSe : (base.take i).isEmpty = false := by
        cases hh : base.take i with
        | nil => exact absurd hh hS
        | cons x t => rfl
      have hee : (base.drop (i + 1)).isEmpty = false := by
        cases hh : base.drop (i + 1) with
        | nil => exact absurd hh he
        | cons x t => rfl
      have hkw : keeps_whole base =
          ((('.' :: base.drop (i + 1)).any (fun d => folder_seps_filename.contains d)) ||
            ends_with_separator (base.take i)) := by
        simp only [keeps_whole, hsp, List.isEmpty_cons, hSe, List.tail_cons, hee,
          Bool.false_or]
      cases h2 : find_last_of base folder_seps_filename with
      | none =>
        have hall : ∀ d ∈ base, folder_seps_filename.contains d = false := find_last_none h2
        have hany : (('.' :: base.drop (i + 1)).any
            (fun d => folder_seps_filename.contains d)) = false := by
          rw [List.any_eq_false]
          intro d hd
          have : d ∈ base := by rw [← happ]; exact List.mem_append_right _ hd
          rw [hall d this]
          decide
        have hend : ends_with_separator (base.take i) = false := by
          obtain ⟨t, y, hty⟩ := exists_concat_of_ne_nil hS
          rw [hty, ends_with_separator_concat]
          exact hall y (by rw [← happ, hty]; simp)
        rw [hkw, hany, hend, hsp]
        simp [split_by_extension, h, h1, h2, hdrop]
      | some j =>
        obtain ⟨d, hd, hdec, hQ⟩ := find_last_some h2
        have hjlt := find_last_lt h2
        have hPlen : (base.take j).length = j := by
          rw [List.length_take]; omega
        have hiff := separator_near_dot hS (happ.trans hdec) hd hQ
        rw [hPlen, hSlen] at hiff
        by_cases h3 : j ≥ i - 1
        · have hk : keeps_whole base = true := by
            rw [hkw]
            rcases hiff.mp h3 with hx | hx
            · rw [hx]; rfl
            · rw [hx]; simp
          rw [hk, if_pos rfl]
          simp [split_by_extension, h, h1, h2, h3]
        · have hk : keeps_whole base = false := by
            rw [hkw]
            cases hx : (('.' :: base.drop (i + 1)).any
                (fun d => folder_seps_filename.contains d)) with
            | true => exact absurd (hiff.mpr (Or.inl hx)) h3
            | false =>
              cases hy : ends_with_separator (base.take i) with
              | true => exact absurd (hiff.mpr (Or.inr hy)) h3
              | false => rfl
          rw [hk, hsp]
          simp [split_by_extension, h, h1, h2, h3, hdrop]

/-- C9, as stated, fails where the last `.` of the base does not open an extension: the code
keeps `.hidden`, `file.` and `a/.txt` whole and appends the index, where the split at the last
`.` would put the index before that `.`. -/
theorem calc_filename_keeps_name_whole :
    split_at_last_dot ".hidden".toList = ([], ".hidden".toList) ∧
    calc_name_spec ".hidden".toList 1 = ".1.hidden".toList ∧
    calc_filename ".hidden".toList 1 = ".hidden.1".toList ∧
    calc_filename ".hidden".toList 1 ≠ calc_name_spec ".hidden".toList 1 ∧
    split_at_last_dot "file.".toList = ("file".toList, ".".toList) ∧
    calc_name_spec "file.".toList 1 = "file.1.".toList ∧
    calc_filename "file.".toList 1 = "file..1".toList ∧
    calc_filename "file.".toList 1 ≠ calc_name_spec "file.".toList 1 ∧
    split_at_last_dot "a/.txt".toList = ("a/".toList, ".txt".toList) ∧
    calc_name_spec "a/.txt".toList 7 = "a/.7.txt".toList ∧
    calc_filename "a/.txt".toList 7 = "a/.txt.7".toList ∧
    calc_filename "a/.txt".toList 7 ≠ calc_name_spec "a/.txt".toList 7 := by
  refine ⟨by decide, by decide, by decide, by decide, by decide, by decide, by decide,
    by decide, by decide, by decide, by decide, by decide⟩

/-- C9, amended: `calc_filename(base, 0) = base`, so resolving the base first changes nothing,
and for a positive index `calc_filename(base, index)` is stem, ".", the decimal index and the
extension, where stem and extension are the base split at its last `.`, except that the base
is kept whole, with the index appended after it, when it has no `.`, when its last `.` is its
first or last character, or when a folder separator stands directly before that `.` or after
it.  In both cases the two parts recompose the base, and
`calc_filename("logs/mylog.txt", 3) = "logs/mylog.3.txt"`. -/
theorem calc_filename_refines_spec (base : filename_t) (index : Nat) :
    calc_filename base 0 = base ∧
    calc_filename base 0 = calc_name_spec base 0 ∧
    calc_filename (calc_filename base 0) index = calc_filename base index ∧
    calc_filename base (index + 1) =
      (if keeps_whole base then base ++ ".".toList ++ to_string (index + 1)
        else calc_name_spec base (index + 1)) ∧
    split_by_extension base =
      (if keeps_whole base then (base, []) else split_at_last_dot base) ∧
    (split_at_last_dot base).1 ++ (split_at_last_dot base).2 = base ∧
    (('.' ∉ base ∧ (split_at_last_dot base).2 = []) ∨
      ∃ e, (split_at_last_dot base).2 = '.' :: e ∧ '.' ∉ e) ∧
    (split_by_extension base).1 ++ (split_by_extension base).2 = base ∧
    ('.' ∉ base → calc_filename base (index + 1) = calc_name_spec base (index + 1)) ∧
    decimal_value (to_string (index + 1)) = index + 1 ∧
    keeps_whole "logs/mylog.txt".toList = false ∧
    calc_filename "logs/mylog.txt".toList 3 = "logs/mylog.3.txt".toList := by
  obtain ⟨happ, hshape⟩ := split_at_last_dot_spec base
  have hsplit := split_by_extension_eq base
  have hpos := calc_filename_pos base (Nat.succ_pos index)
  have hname : calc_filename base (index + 1) =
      (if keeps_whole base then base ++ ".".toList ++ to_string (index + 1)
        else calc_name_spec base (index + 1)) := by
    rw [hpos, hsplit]
    cases hk : keeps_whole base with
    | true => simp
    | false => simp [calc_name_spec]
  refine ⟨calc_filename_zero base, by rw [calc_filename_zero]; rfl, by rw [calc_filename_zero],
    hname, hsplit, happ, hshape, split_by_extension_append base, ?_,
    decimal_value_to_string _, by decide, by decide⟩
  intro hno
  rw [hname]
  have hsp : split_at_last_dot base = (base, []) :=
    split_at_last_dot_unique (by simp) (Or.inl ⟨hno, rfl⟩)
  cases hk : keeps_whole base with
  | true => simp [calc_name_spec, hsp]
  | false => simp

end spdlog
